import Mathlib

/-!
Verification of the appimage-thumbnailer sources against their
natural-language specification.

The C sources are shallowly embedded: files and C strings become `List Nat`
byte lists, fallible calls become `Option`, child-process behaviour becomes
explicit oracle functions, and the filesystem (for the temp-directory
cleanup code) becomes an explicit list of path/kind pairs.
-/

namespace AIT

/-- Byte values of a string literal (C strings are byte arrays). -/
def strB (s : String) : List Nat := s.data.map Char.toNat

/-- glib `g_ascii_isspace`: space, TAB, LF, VT, FF, CR. -/
def isSpaceB (b : Nat) : Bool := b == 32 || b == 9 || b == 10 || b == 11 || b == 12 || b == 13

/-- glib `g_ascii_isprint`: printable ASCII, space through tilde. -/
def isPrintB (b : Nat) : Bool := decide (32 ≤ b ∧ b ≤ 126)

/-- glib `g_ascii_isalnum`. -/
def isAlnumB (b : Nat) : Bool :=
  decide ((48 ≤ b ∧ b ≤ 57) ∨ (65 ≤ b ∧ b ≤ 90) ∨ (97 ≤ b ∧ b ≤ 122))

/-- glib `g_ascii_tolower`. -/
def lowerB (b : Nat) : Nat := if 65 ≤ b ∧ b ≤ 90 then b + 32 else b

/-- `g_ascii_strcasecmp` equality: equal after ASCII lowercasing. -/
def strCaseEq (a b : List Nat) : Bool := a.map lowerB == b.map lowerB

/-- `g_strchug`: drop leading ASCII whitespace. -/
def trimLeft (l : List Nat) : List Nat := l.dropWhile isSpaceB

/-- `g_strchomp`: drop trailing ASCII whitespace. -/
def trimRight (l : List Nat) : List Nat := (l.reverse.dropWhile isSpaceB).reverse

/-- `g_strstrip`. -/
def trimB (l : List Nat) : List Nat := trimRight (trimLeft l)

/-! ## appimage-type.c: the Header Parser -/

/-- ELF magic `"\x7fELF"` (appimage-type.c). -/
def ELF_MAGIC : List Nat := [0x7f, 0x45, 0x4c, 0x46]

/-- AppImage magic `"AI"` at `e_ident[8..9]` (appimage-type.c). -/
def AI_MAGIC : List Nat := [0x41, 0x49]

/-- SquashFS little-endian magic `"hsqs"` (appimage-type.c). -/
def SQFS_MAGIC : List Nat := strB "hsqs"

/-- DwarFS magic `"DWARFS"` (appimage-type.c). -/
def DWARFS_MAGIC : List Nat := strB "DWARFS"

/-- `lseek(fd, off, SEEK_SET)` followed by `read(fd, buf, n)` on a regular
file: yields the bytes actually available, possibly fewer than `n`. -/
def readAt (file : List Nat) (off n : Nat) : List Nat := (file.drop off).take n

/-- A `read` whose result is used only when all `n` bytes arrived
(the C code checks `read(...) != n`). -/
def readExact (file : List Nat) (off n : Nat) : Option (List Nat) :=
  let bs := readAt file off n
  if bs.length = n then some bs else none

/-- Single byte access (0 when out of range, unused in that case). -/
def byteAt (file : List Nat) (i : Nat) : Nat := (file.drop i).headD 0

/-- Little-endian value of a byte sequence (GUINT*_FROM_LE). -/
def leVal : List Nat → Nat
  | [] => 0
  | b :: rest => b + 256 * leVal rest

/-- Big-endian value of a byte sequence (GUINT*_FROM_BE). -/
def beVal (bs : List Nat) : Nat := leVal bs.reverse

/-- Field decoding in the byte order declared by the ELF header. -/
def fieldVal (isBE : Bool) (bs : List Nat) : Nat := if isBE then beVal bs else leVal bs

/-- The C cast `(off_t)shoff64`: a 64-bit unsigned value reinterpreted as a
signed 64-bit `off_t` (two's complement). -/
def toOff (v : Nat) : Int := if v < 2 ^ 63 then (v : Int) else (v : Int) - 2 ^ 64

/-- `AppImageFormat` from appimage-type.h. -/
inductive Format
  | unknown
  | squashfs
  | dwarfs
deriving DecidableEq, Repr

/-- `appimage_payload_offset` (appimage-type.c, lines 87-186): parse the ELF
header, return `e_shoff + e_shnum * e_shentsize`, or `none` for the C
return value -1.  The file is the byte list; every real file byte is < 256. -/
def appimage_payload_offset (file : List Nat) : Option Int :=
  if (readAt file 0 16).length < 16 then none
  else if readAt file 0 4 ≠ ELF_MAGIC then none
  else
    let cls := byteAt file 4
    let isBE := byteAt file 5 == 2
    if cls = 2 then
      match readExact file 40 8, readExact file 58 2, readExact file 60 2 with
      | some sh, some se, some sn =>
          some (toOff (fieldVal isBE sh) + ((fieldVal isBE sn * fieldVal isBE se : Nat) : Int))
      | _, _, _ => none
    else if cls = 1 then
      match readExact file 32 4, readExact file 46 2, readExact file 48 2 with
      | some sh, some se, some sn =>
          some (((fieldVal isBE sh : Nat) : Int) + ((fieldVal isBE sn * fieldVal isBE se : Nat) : Int))
      | _, _, _ => none
    else none

/-- `appimage_detect_format` (appimage-type.c, lines 188-235). -/
def appimage_detect_format (file : List Nat) : Format :=
  match appimage_payload_offset file with
  | none => Format.unknown
  | some off =>
    if off ≤ 0 then Format.unknown
    else
      let magic := readAt file off.toNat 8
      if magic.length < 4 then Format.unknown
      else if magic.take 4 = SQFS_MAGIC then Format.squashfs
      else if 6 ≤ magic.length ∧ magic.take 6 = DWARFS_MAGIC then Format.dwarfs
      else Format.unknown

/-- `appimage_get_type` (appimage-type.c, lines 51-85): the only function that
checks the AppImage `AI` marker at `e_ident[8..9]`. -/
def appimage_get_type (file : List Nat) : Option Nat :=
  if (readAt file 0 16).length < 16 then none
  else if readAt file 0 4 ≠ ELF_MAGIC then none
  else if readAt file 8 2 ≠ AI_MAGIC then none
  else some (byteAt file 10)

/-! Spec-side field readers for claim C3, following the spec wording:
"(section-header-table file offset) + (section-header entry count × entry
size), all read from the executable header using the file's declared word
size (32- or 64-bit) and byte order (little- or big-endian)". -/

/-- Spec-side `e_shoff`: 64-bit quantity at offset 40 for ELF64,
32-bit quantity at offset 32 for ELF32, in the declared byte order. -/
def specShoff (file : List Nat) : Nat :=
  fieldVal (byteAt file 5 == 2)
    (readAt file (if byteAt file 4 = 2 then 40 else 32) (if byteAt file 4 = 2 then 8 else 4))

/-- Spec-side `e_shentsize` in the declared byte order. -/
def specShentsize (file : List Nat) : Nat :=
  fieldVal (byteAt file 5 == 2) (readAt file (if byteAt file 4 = 2 then 58 else 46) 2)

/-- Spec-side `e_shnum` in the declared byte order. -/
def specShnum (file : List Nat) : Nat :=
  fieldVal (byteAt file 5 == 2) (readAt file (if byteAt file 4 = 2 then 60 else 48) 2)

lemma readExact_of_le (file : List Nat) (off n : Nat) (h : off + n ≤ file.length) :
    readExact file off n = some (readAt file off n) := by
  unfold readExact
  have hl : (readAt file off n).length = n := by
    simp only [readAt, List.length_take, List.length_drop]
    omega
  simp [hl]

lemma toOff_of_lt (v : Nat) (h : v < 2 ^ 63) : toOff v = (v : Int) := by
  unfold toOff
  rw [if_pos h]

/-- A concrete 32-bit little-endian ELF file whose `e_ident[8..9]` is not the
AppImage `AI` marker but whose computed payload offset (50) holds the
SquashFS magic. -/
def c2file : List Nat :=
  [0x7f, 0x45, 0x4c, 0x46, 1, 1, 0, 0, 0, 0] ++ List.replicate 22 0 ++
  [50, 0, 0, 0] ++ List.replicate 10 0 ++ [0, 0] ++ [0, 0] ++ strB "hsqs"

/-- `c2file` without the payload magic: the computed offset 50 equals the
file length, so format detection reads no magic bytes. -/
def c2short : List Nat :=
  [0x7f, 0x45, 0x4c, 0x46, 1, 1, 0, 0, 0, 0] ++ List.replicate 22 0 ++
  [50, 0, 0, 0] ++ List.replicate 10 0 ++ [0, 0] ++ [0, 0]

/-- C2, counterexample: a container that lacks the embedded `AI` marker
(`appimage_get_type` rejects it) is still classified as SquashFS by
`appimage_detect_format`, which never consults the marker; the claim says
such a container must resolve to Unknown. -/
theorem c2_counterexample :
    readAt c2file 8 2 ≠ AI_MAGIC ∧ appimage_get_type c2file = none ∧
    appimage_detect_format c2file = Format.squashfs := by decide

/-- C2 (amended): `appimage_detect_format` fails closed when the prefix is
short, when the ELF magic is absent, or when the computed payload offset is
at or past the end of the file; the embedded `AI` marker is not part of the
detection path. -/
theorem c2_fails_closed (file : List Nat) :
    (file.length < 16 → appimage_detect_format file = Format.unknown) ∧
    (readAt file 0 4 ≠ ELF_MAGIC → appimage_detect_format file = Format.unknown) ∧
    (∀ off : Int, appimage_payload_offset file = some off → (file.length : Int) ≤ off →
      appimage_detect_format file = Format.unknown) := by
  refine ⟨?_, ?_, ?_⟩
  · intro h
    have hnone : appimage_payload_offset file = none := by
      unfold appimage_payload_offset
      have hl : (readAt file 0 16).length < 16 := by
        simp only [readAt, List.length_take, List.length_drop]
        omega
      simp [hl]
    simp [appimage_detect_format, hnone]
  · intro h
    have hnone : appimage_payload_offset file = none := by
      unfold appimage_payload_offset
      by_cases hl : (readAt file 0 16).length < 16
      · simp [hl]
      · simp [hl, h]
    simp [appimage_detect_format, hnone]
  · intro off hoff hlen
    unfold appimage_detect_format
    rw [hoff]
    by_cases hpos : off ≤ 0
    · simp [hpos]
    · have hdrop : file.drop off.toNat = [] := by
        apply List.drop_eq_nil_of_le
        omega
      simp [hpos, readAt, hdrop]

/-- C2, witness for the amended theorem at concrete inputs: the empty file
and a file whose computed offset equals its length both resolve to Unknown. -/
theorem c2_witness :
    appimage_detect_format [] = Format.unknown ∧
    appimage_detect_format c2short = Format.unknown := by
  constructor
  · exact (c2_fails_closed []).1 (by decide)
  · exact (c2_fails_closed c2short).2.2 50 (by decide) (by decide)

/-- C3: on a well-formed ELF prefix (ELF magic, declared class 1 or 2,
declared byte order 1 or 2, enough header bytes, section table offset in
`off_t` range), `appimage_payload_offset` returns exactly
`e_shoff + e_shnum * e_shentsize`, the three fields read at the documented
offsets for the declared word size and in the declared byte order. -/
theorem c3_payload_offset_formula (file : List Nat)
    (hmag : readAt file 0 4 = ELF_MAGIC)
    (hcls : byteAt file 4 = 1 ∨ byteAt file 4 = 2)
    (_hdata : byteAt file 5 = 1 ∨ byteAt file 5 = 2)
    (hlen : (if byteAt file 4 = 2 then 62 else 50) ≤ file.length)
    (hoff : byteAt file 4 = 2 → specShoff file < 2 ^ 63) :
    appimage_payload_offset file =
      some ((specShoff file : Int) + ((specShnum file * specShentsize file : Nat) : Int)) := by
  have h16 : ¬ (readAt file 0 16).length < 16 := by
    simp only [readAt, List.length_take, List.length_drop]
    rcases hcls with h | h <;> simp [h] at hlen <;> omega
  rcases hcls with h1 | h2
  · have hlen50 : 50 ≤ file.length := by simpa [h1] using hlen
    unfold appimage_payload_offset
    rw [readExact_of_le file 32 4 (by omega), readExact_of_le file 46 2 (by omega),
      readExact_of_le file 48 2 (by omega)]
    simp [h16, hmag, h1, specShoff, specShnum, specShentsize]
  · have hlen62 : 62 ≤ file.length := by simpa [h2] using hlen
    have hsh : specShoff file < 2 ^ 63 := hoff h2
    unfold appimage_payload_offset
    rw [readExact_of_le file 40 8 (by omega), readExact_of_le file 58 2 (by omega),
      readExact_of_le file 60 2 (by omega)]
    have htoOff := toOff_of_lt (specShoff file) hsh
    simp only [specShoff, h2, if_pos] at htoOff
    simp [h16, hmag, h2, htoOff, specShoff, specShnum, specShentsize]

/-- A concrete 64-bit little-endian ELF prefix: `e_shoff` = 100,
`e_shentsize` = 64, `e_shnum` = 2, so the payload offset is 228. -/
def c3file : List Nat :=
  [0x7f, 0x45, 0x4c, 0x46, 2, 1] ++ List.replicate 34 0 ++
  [100, 0, 0, 0, 0, 0, 0, 0] ++ List.replicate 10 0 ++ [64, 0] ++ [2, 0]

/-- C3, witness: the formula evaluated on `c3file` gives 100 + 2 * 64. -/
theorem c3_witness : appimage_payload_offset c3file = some 228 := by
  have h := c3_payload_offset_formula c3file (by decide) (by decide) (by decide)
    (by decide) (by decide)
  rw [h]
  decide

/-! ## The extraction dispatcher of appimage-thumbnailer.c -/

/-- The two extraction backends reachable from appimage-thumbnailer.c. -/
inductive Backend
  | sevenZ
  | dwarfs
deriving DecidableEq, Repr

/-- Every extractor does `entry[0] == '/' ? entry + 1 : entry`: one leading
slash is stripped. -/
def cleanEntry (entry : List Nat) : List Nat :=
  match entry with
  | 47 :: rest => rest
  | e => e

namespace Thumb

/-- Environment of the appimage-thumbnailer.c dispatcher: the memoized tool
availability flags and the outcome of each external tool run.  `run7z e`
models `command_capture` of `7z e -so -tSquashFS <archive> <e>` on the
cleaned entry (`none`: nonzero exit or capture failure; `some bytes`:
exit 0 with that stdout, possibly empty).  `runDwarfs e` models the whole
`dwarfs_extract_entry` outcome for the cleaned entry. -/
structure ToolEnv where
  sevenzAvailable : Bool
  dwarfsAvailable : Bool
  run7z : List Nat → Option (List Nat)
  runDwarfs : List Nat → Option (List Nat)

/-- `extract_entry_7z` (appimage-thumbnailer.c, lines 228-269): runs 7z and
converts a zero-exit, zero-byte capture into failure. -/
def extract_entry_7z (env : ToolEnv) (entry : List Nat) : Option (List Nat) :=
  if entry = [] then none
  else if ¬ env.sevenzAvailable then none
  else
    match env.run7z (cleanEntry entry) with
    | none => none
    | some out => if out.length = 0 then none else some out

/-- `extract_entry` (appimage-thumbnailer.c, lines 271-303), instrumented
with the ordered list of backends it attempts.  Its C signature is
`(archive, entry, output)`: no `PayloadDescriptor` is passed in, and the
body consults only `check_7z_available` and `dwarfs_tools_available`. -/
def extract_entry (env : ToolEnv) (entry : List Nat) :
    Option (List Nat) × List Backend :=
  if entry = [] then (none, [])
  else
    let first : Option (List Nat) × List Backend :=
      if env.sevenzAvailable then (extract_entry_7z env entry, [Backend.sevenZ])
      else (none, [])
    match first with
    | (some out, t) => (some out, t)
    | (none, t) =>
      if env.dwarfsAvailable then
        match env.runDwarfs (cleanEntry entry) with
        | some out => (some out, t ++ [Backend.dwarfs])
        | none => (none, t ++ [Backend.dwarfs])
      else (none, t)

/-- The attempt order actually implemented: it is a function of the
availability flags and of the 7z attempt's outcome only — the container's
detected payload format does not occur in it. -/
def attemptsSpec (env : ToolEnv) (entry : List Nat) : List Backend :=
  if entry = [] then []
  else
    (if env.sevenzAvailable then [Backend.sevenZ] else []) ++
    (if env.sevenzAvailable ∧ (extract_entry_7z env entry).isSome then []
     else if env.dwarfsAvailable then [Backend.dwarfs] else [])

end Thumb

/-- A concrete AppImage container (ELF, `AI` marker, type 2) whose payload
at the computed offset 50 carries the DwarFS magic: definitively KindB. -/
def c1file : List Nat :=
  [0x7f, 0x45, 0x4c, 0x46, 1, 1, 0, 0, 0x41, 0x49] ++ List.replicate 22 0 ++
  [50, 0, 0, 0] ++ List.replicate 10 0 ++ [0, 0] ++ [0, 0] ++ strB "DWARFS"

/-- C1 environment: both tools installed, 7z fails on the DwarFS payload,
dwarfsextract succeeds. -/
def c1env : Thumb.ToolEnv :=
  { sevenzAvailable := true
    dwarfsAvailable := true
    run7z := fun _ => none
    runDwarfs := fun _ => some [137] }

/-- C1, counterexample: for a container that is definitively DwarFS (KindB),
`extract_entry` still attempts the 7z/SquashFS (KindA) backend — the
Header Parser's verdict is never consulted before ordering the attempts. -/
theorem c1_counterexample :
    appimage_detect_format c1file = Format.dwarfs ∧
    Backend.sevenZ ∈ (Thumb.extract_entry c1env (strB ".DirIcon")).2 := by decide

lemma thumb_attempts_eq (env : Thumb.ToolEnv) (entry : List Nat) :
    (Thumb.extract_entry env entry).2 = Thumb.attemptsSpec env entry := by
  unfold Thumb.extract_entry Thumb.attemptsSpec
  by_cases he : entry = []
  · simp [he]
  · by_cases hs : env.sevenzAvailable
    · cases h7 : Thumb.extract_entry_7z env entry with
      | some out => simp [he, hs, h7]
      | none =>
        by_cases hd : env.dwarfsAvailable
        · cases hdw : env.runDwarfs (cleanEntry entry) <;> simp [he, hs, h7, hd, hdw]
        · simp [he, hs, h7, hd]
    · by_cases hd : env.dwarfsAvailable
      · cases hdw : env.runDwarfs (cleanEntry entry) <;> simp [he, hs, hd, hdw]
      · simp [he, hs, hd]

/-- C1 (amended): the backends `extract_entry` attempts are exactly
`attemptsSpec`, a function of tool availability and the 7z outcome alone;
the detected payload format does not influence the order, so neither
backend is ever skipped on account of a format verdict. -/
theorem c1_attempts_ignore_format (env : Thumb.ToolEnv) (entry : List Nat) :
    (Thumb.extract_entry env entry).2 = Thumb.attemptsSpec env entry :=
  thumb_attempts_eq env entry

namespace MainC

/-- `extract_entry` (main.c, lines 100-123): invokes
`7z e -so <archive> <entry>` via `command_capture` and returns its captured
stdout unchanged — there is no empty-output check in this variant. -/
def extract_entry (run7z : List Nat → Option (List Nat)) (entry : List Nat) :
    Option (List Nat) :=
  if entry = [] then none
  else
    let clean := cleanEntry entry
    if clean = strB "./" then none
    else run7z clean

end MainC

/-- C5, counterexample: in main.c, a 7z child that exits zero having written
zero bytes makes `extract_entry` report success with an empty payload,
not failure. -/
theorem c5_counterexample :
    MainC.extract_entry (fun _ => some []) (strB ".DirIcon") = some [] := by decide

/-- C5 (amended): only the appimage-thumbnailer.c 7z path implements the
required rule: `extract_entry_7z` turns a zero-exit, zero-byte 7z run into
failure, and `extract_entry` then falls back to the DwarFS backend;
main.c's `extract_entry` propagates the empty capture as success
(`c5_counterexample`). -/
theorem c5_empty_output_is_failure (env : Thumb.ToolEnv) (entry : List Nat)
    (h7 : env.run7z (cleanEntry entry) = some [])
    (hne : entry ≠ [])
    (hd : env.dwarfsAvailable = true) :
    Thumb.extract_entry_7z env entry = none ∧
    Backend.dwarfs ∈ (Thumb.extract_entry env entry).2 := by
  have h7z : Thumb.extract_entry_7z env entry = none := by
    unfold Thumb.extract_entry_7z
    by_cases hs : env.sevenzAvailable <;> simp [hne, hs, h7]
  refine ⟨h7z, ?_⟩
  rw [thumb_attempts_eq]
  unfold Thumb.attemptsSpec
  by_cases hs : env.sevenzAvailable <;> simp [hne, hs, hd, h7z]

/-- C5 environment: both tools available, 7z exits zero with empty stdout. -/
def c5env : Thumb.ToolEnv :=
  { sevenzAvailable := true
    dwarfsAvailable := true
    run7z := fun _ => some []
    runDwarfs := fun _ => none }

/-- C5, witness for the amended theorem at a concrete environment. -/
theorem c5_witness :
    Thumb.extract_entry_7z c5env (strB ".DirIcon") = none ∧
    Backend.dwarfs ∈ (Thumb.extract_entry c5env (strB ".DirIcon")).2 :=
  c5_empty_output_is_failure c5env (strB ".DirIcon") rfl (by decide) rfl

/-! ## The Pointer Resolver -/

/-- The allowed pointer character set of both variants:
`/`, `.`, `-`, `_` or `g_ascii_isalnum`. -/
def pointerCharOK (b : Nat) : Bool :=
  b == 47 || b == 46 || b == 45 || b == 95 || isAlnumB b

namespace Thumb

/-- `POINTER_TEXT_LIMIT` of appimage-thumbnailer.c. -/
def POINTER_TEXT_LIMIT : Nat := 1024

/-- `is_pointer_candidate` (appimage-thumbnailer.c, lines 372-405):
`some trimmed` models `TRUE` with `*pointer_out = g_strdup(trimmed)`. -/
def is_pointer_candidate (data : List Nat) : Option (List Nat) :=
  if data.length = 0 ∨ POINTER_TEXT_LIMIT < data.length then none
  else if data.any (fun b => b == 0 || (!isPrintB b && !isSpaceB b)) then none
  else if trimB data = [] then none
  else if (trimB data).all pointerCharOK then some (trimB data)
  else none

end Thumb

namespace MainC

/-- `POINTER_TEXT_LIMIT` of main.c. -/
def POINTER_TEXT_LIMIT : Nat := 4096

/-- The character loop of main.c's `is_pointer_candidate`: accept allowed
characters, and STOP SCANNING with acceptance at the first whitespace
character; reject anything else. -/
def mainScan : List Nat → Bool
  | [] => true
  | c :: rest =>
    if pointerCharOK c then mainScan rest
    else if isSpaceB c then true
    else false

/-- `is_pointer_candidate` (main.c, lines 161-194): no printable-ASCII
byte check, and the charset scan breaks at interior whitespace. -/
def is_pointer_candidate (data : List Nat) : Option (List Nat) :=
  if data.length = 0 ∨ POINTER_TEXT_LIMIT < data.length then none
  else if data.any (fun b => b == 0) then none
  else if trimB data = [] then none
  else if mainScan (trimB data) then some (trimB data)
  else none

end MainC

/-- C4, counterexample: the main.c variant classifies `['a', ' ', 0x01]`
as a Pointer whose text is the whole trimmed buffer, although the space is
outside the allowed character set and byte 0x01 is neither printable ASCII
nor ASCII whitespace. -/
theorem c4_counterexample :
    MainC.is_pointer_candidate [97, 32, 1] = some [97, 32, 1] ∧
    pointerCharOK 32 = false ∧ isPrintB 1 = false ∧ isSpaceB 1 = false := by decide

/-- C4 (amended): the appimage-thumbnailer.c variant satisfies every
condition the claim lists, and its pointer text is exactly the trimmed
buffer; the main.c variant guarantees only the length bound, the absence of
NUL bytes, the trim equation and that the allowed-charset scan holds up to
the first interior whitespace. -/
theorem c4_pointer_classification (data out : List Nat) :
    (Thumb.is_pointer_candidate data = some out →
      (1 ≤ data.length ∧ data.length ≤ Thumb.POINTER_TEXT_LIMIT) ∧
      (∀ b ∈ data, b ≠ 0 ∧ (isPrintB b = true ∨ isSpaceB b = true)) ∧
      out = trimB data ∧ out ≠ [] ∧ (∀ b ∈ out, pointerCharOK b = true)) ∧
    (MainC.is_pointer_candidate data = some out →
      (1 ≤ data.length ∧ data.length ≤ MainC.POINTER_TEXT_LIMIT) ∧
      (∀ b ∈ data, b ≠ 0) ∧
      out = trimB data ∧ out ≠ [] ∧ MainC.mainScan out = true) := by
  constructor
  · intro h
    unfold Thumb.is_pointer_candidate at h
    split at h
    · exact absurd h (by simp)
    · next hlen =>
      split at h
      · exact absurd h (by simp)
      · next hbytes =>
        simp only [List.any_eq_true, not_exists, not_and, Bool.or_eq_true,
          Bool.and_eq_true, Bool.not_eq_eq_eq_not, Bool.not_true, beq_iff_eq,
          not_or, not_and] at hbytes
        split at h
        · exact absurd h (by simp)
        · next htrim =>
          split at h
          · next hall =>
            have hout : trimB data = out := Option.some_inj.mp h
            refine ⟨⟨?_, ?_⟩, ?_, hout.symm, ?_, ?_⟩
            · omega
            · omega
            · intro b hb
              have hc := hbytes b hb
              refine ⟨hc.1, ?_⟩
              rcases Bool.eq_false_or_eq_true (isPrintB b) with hp | hp
              · exact Or.inl hp
              · refine Or.inr ?_
                have hsp := hc.2 hp
                simpa using hsp
            · rw [← hout]
              exact htrim
            · intro b hb
              rw [← hout] at hb
              exact List.all_eq_true.mp hall b hb
          · exact absurd h (by simp)
  · intro h
    unfold MainC.is_pointer_candidate at h
    split at h
    · exact absurd h (by simp)
    · next hlen =>
      split at h
      · exact absurd h (by simp)
      · next hbytes =>
        simp only [List.any_eq_true, not_exists, not_and, beq_iff_eq] at hbytes
        split at h
        · exact absurd h (by simp)
        · next htrim =>
          split at h
          · next hscan =>
            have hout : trimB data = out := Option.some_inj.mp h
            refine ⟨⟨?_, ?_⟩, ?_, hout.symm, ?_, ?_⟩
            · omega
            · omega
            · intro b hb
              exact fun h0 => hbytes b hb h0
            · rw [← hout]
              exact htrim
            · rw [← hout]
              exact hscan
          · exact absurd h (by simp)

/-- C4, witness: the amended theorem applied to two concrete buffers. -/
theorem c4_witness :
    trimB (strB " icons/app.svg ") = strB "icons/app.svg" ∧
    MainC.mainScan [97, 32, 98] = true := by
  have h1 := (c4_pointer_classification (strB " icons/app.svg ") (strB "icons/app.svg")).1
    (by decide)
  have h2 := (c4_pointer_classification [97, 32, 98] [97, 32, 98]).2 (by decide)
  exact ⟨h1.2.2.1.symm, h2.2.2.2.2⟩

/-! ## The Image Normalizer scaling step

C `double` arithmetic is modelled by exact rationals; `lround` rounds half
away from zero. -/

/-- C `lround` on a rational: round half away from zero. -/
def lroundQ (q : ℚ) : Int := if 0 ≤ q then ⌊q + 1 / 2⌋ else ⌈q - 1 / 2⌉

/-- The `MIN(a, b)` macro on doubles. -/
def minQ (a b : ℚ) : ℚ := if a < b then a else b

/-- The `MIN(a, b)` macro on ints. -/
def minI (a b : Int) : Int := if a < b then a else b

/-- The `MAX(a, b)` macro on ints. -/
def maxI (a b : Int) : Int := if a > b then a else b

namespace MainC

/-- `scale_pixbuf` (main.c, lines 288-307), as the map from input pixel
dimensions and target size to output pixel dimensions.  An image that
already fits is returned unscaled. -/
def scale_pixbuf (w h size : Int) : Option (Int × Int) :=
  if w ≤ 0 ∨ h ≤ 0 then none
  else if w ≤ size ∧ h ≤ size then some (w, h)
  else
    some (maxI 1 (lroundQ ((w : ℚ) * minQ ((size : ℚ) / (w : ℚ)) ((size : ℚ) / (h : ℚ)))),
      maxI 1 (lroundQ ((h : ℚ) * minQ ((size : ℚ) / (w : ℚ)) ((size : ℚ) / (h : ℚ)))))

end MainC

namespace Thumb

/-- The scale factor of appimage-thumbnailer.c's `scale_pixbuf`:
`min(size/w, size/h)`, replaced by 1.0 when non-finite or non-positive
(in exact rationals only non-positivity can occur). -/
def scaleFactor (w h size : Int) : ℚ :=
  if minQ ((size : ℚ) / (w : ℚ)) ((size : ℚ) / (h : ℚ)) ≤ 0 then 1
  else minQ ((size : ℚ) / (w : ℚ)) ((size : ℚ) / (h : ℚ))

/-- `scale_pixbuf` (appimage-thumbnailer.c, lines 513-538): no
already-fits early return; the rounded targets are clamped to `size` and
the pixbuf is rescaled whenever they differ from the input dimensions. -/
def scale_pixbuf (w h size : Int) : Option (Int × Int) :=
  if w ≤ 0 ∨ h ≤ 0 then none
  else
    some (minI (maxI 1 (lroundQ ((w : ℚ) * scaleFactor w h size))) size,
      minI (maxI 1 (lroundQ ((h : ℚ) * scaleFactor w h size))) size)

end Thumb

/-- C6, counterexample: a 100×100 raster with target size 256 — both
dimensions are at most the target, yet the appimage-thumbnailer.c variant
rescales it to 256×256, upscaling beyond the original pixel dimensions. -/
theorem c6_counterexample :
    Thumb.scale_pixbuf 100 100 256 = some (256, 256) := by
  unfold Thumb.scale_pixbuf Thumb.scaleFactor minQ minI maxI lroundQ
  norm_num

/-- C6 (amended): the main.c variant of `scale_pixbuf` leaves the pixel
dimensions unchanged whenever both are at most the target size; the
appimage-thumbnailer.c variant instead rescales such images up to the
target (`c6_counterexample`). -/
theorem c6_no_upscale_mainc (w h size : Int)
    (hw : 0 < w) (hh : 0 < h) (hws : w ≤ size) (hhs : h ≤ size) :
    MainC.scale_pixbuf w h size = some (w, h) := by
  unfold MainC.scale_pixbuf
  rw [if_neg (by omega), if_pos ⟨hws, hhs⟩]

/-- C6, witness: the amended theorem at 100×100, target 256. -/
theorem c6_witness : MainC.scale_pixbuf 100 100 256 = some (100, 100) :=
  c6_no_upscale_mainc 100 100 256 (by decide) (by decide) (by decide) (by decide)

/-! ## Pointer-chain resolution loops -/

namespace Thumb

/-- `MAX_SYMLINK_DEPTH` of appimage-thumbnailer.c. -/
def MAX_SYMLINK_DEPTH : Nat := 5

/-- Oracles for the calls the chain loop makes: `extract` is the
`extract_entry` outcome per entry path, `render` the
`process_icon_payload` outcome per non-pointer payload. -/
structure ChainEnv where
  extract : List Nat → Option (List Nat)
  render : List Nat → Bool

/-- The `for (depth = 0; depth < MAX_SYMLINK_DEPTH && current; ++depth)`
loop of `process_entry_following_symlinks` (lines 616-661), with the
remaining iteration budget as fuel; also returns the number of loop
iterations performed. -/
def chainLoop (env : ChainEnv) : Nat → List Nat → Bool × Nat
  | 0, _ => (false, 0)
  | fuel + 1, current =>
    match env.extract current with
    | none => (false, 1)
    | some payload =>
      match is_pointer_candidate payload with
      | some next =>
        let r := chainLoop env fuel next
        (r.1, r.2 + 1)
      | none => (env.render payload, 1)

/-- `process_entry_following_symlinks` (appimage-thumbnailer.c, 616-661). -/
def process_entry_following_symlinks (env : ChainEnv) (entry : List Nat) : Bool × Nat :=
  chainLoop env MAX_SYMLINK_DEPTH entry

lemma chainLoop_iterations_le (env : ChainEnv) :
    ∀ fuel current, (chainLoop env fuel current).2 ≤ fuel := by
  intro fuel
  induction fuel with
  | zero => intro current; simp [chainLoop]
  | succ n ih =>
    intro current
    unfold chainLoop
    cases he : env.extract current with
    | none => simp
    | some payload =>
      cases hc : is_pointer_candidate payload with
      | some next =>
        simp only [hc]
        exact Nat.succ_le_succ (ih next)
      | none => simp [hc]

lemma chainLoop_all_pointers_false (env : ChainEnv)
    (hp : ∀ e, ∃ p, env.extract e = some p ∧ (is_pointer_candidate p).isSome) :
    ∀ fuel current, (chainLoop env fuel current).1 = false := by
  intro fuel
  induction fuel with
  | zero => intro current; simp [chainLoop]
  | succ n ih =>
    intro current
    obtain ⟨p, hep, hps⟩ := hp current
    unfold chainLoop
    rw [hep]
    cases hc : is_pointer_candidate p with
    | some next => simpa [hc] using ih next
    | none => rw [hc] at hps; simp at hps

end Thumb

namespace MainC

/-- `MAX_DIRICON_CHAIN` of main.c. -/
def MAX_DIRICON_CHAIN : Nat := 8

/-- Oracles for main.c's chain: `extract` per entry path, `render` the
SVG/raster processing outcome for non-pointer payloads. -/
structure ChainEnv where
  extract : List Nat → Option (List Nat)
  render : List Nat → Bool

/-- `process_icon_payload` (main.c, lines 309-363) as seen by
`try_dir_icon`: a pointer payload is not rendered and yields the next
entry path; anything else is rendered. -/
def process_icon_payload (env : ChainEnv) (payload : List Nat) :
    Bool × Option (List Nat) :=
  match is_pointer_candidate payload with
  | some next => (false, some next)
  | none => (env.render payload, none)

/-- The `for (depth = 0; depth < MAX_DIRICON_CHAIN && current; ++depth)`
loop of `try_dir_icon` (main.c, lines 409-438), with iteration count. -/
def dirIconLoop (env : ChainEnv) : Nat → Option (List Nat) → Bool × Nat
  | _, none => (false, 0)
  | 0, some _ => (false, 0)
  | fuel + 1, some current =>
    match env.extract current with
    | none => (false, 1)
    | some payload =>
      match process_icon_payload env payload with
      | (true, _) => (true, 1)
      | (false, next) =>
        let r := dirIconLoop env fuel next
        (r.1, r.2 + 1)

/-- `try_dir_icon` (main.c, lines 409-438). -/
def try_dir_icon (env : ChainEnv) : Bool × Nat :=
  dirIconLoop env MAX_DIRICON_CHAIN (some (strB ".DirIcon"))

lemma dirIconLoop_iterations_le (env : ChainEnv) :
    ∀ fuel current, (dirIconLoop env fuel current).2 ≤ fuel := by
  intro fuel
  induction fuel with
  | zero => intro current; cases current <;> simp [dirIconLoop]
  | succ n ih =>
    intro current
    cases current with
    | none => simp [dirIconLoop]
    | some cur =>
      unfold dirIconLoop
      cases he : env.extract cur with
      | none => simp
      | some payload =>
        cases hpi : process_icon_payload env payload with
        | mk ok next =>
          cases ok
          · simp only [hpi]
            exact Nat.succ_le_succ (ih next)
          · simp [hpi]

lemma dirIconLoop_all_pointers_false (env : ChainEnv)
    (hp : ∀ e, ∃ p, env.extract e = some p ∧ (is_pointer_candidate p).isSome) :
    ∀ fuel current, (dirIconLoop env fuel current).1 = false := by
  intro fuel
  induction fuel with
  | zero => intro current; cases current <;> simp [dirIconLoop]
  | succ n ih =>
    intro current
    cases current with
    | none => simp [dirIconLoop]
    | some cur =>
      obtain ⟨p, hep, hps⟩ := hp cur
      unfold dirIconLoop
      rw [hep]
      cases hc : is_pointer_candidate p with
      | some next =>
        simpa [process_icon_payload, hc] using ih (some next)
      | none => rw [hc] at hps; simp at hps

end MainC

/-- C7: both direct-chain loops perform at most the configured hop bound of
iterations (5 in appimage-thumbnailer.c, 8 in main.c) — termination is
structural in the loop counter — and against any extractor whose answers
are always classified as pointers (in particular an arbitrarily long or
cyclic chain) they terminate with failure. -/
theorem c7_hop_bound (envT : Thumb.ChainEnv) (envM : MainC.ChainEnv) (entry : List Nat) :
    ((Thumb.process_entry_following_symlinks envT entry).2 ≤ Thumb.MAX_SYMLINK_DEPTH) ∧
    ((∀ e, ∃ p, envT.extract e = some p ∧ (Thumb.is_pointer_candidate p).isSome) →
      (Thumb.process_entry_following_symlinks envT entry).1 = false) ∧
    ((MainC.try_dir_icon envM).2 ≤ MainC.MAX_DIRICON_CHAIN) ∧
    ((∀ e, ∃ p, envM.extract e = some p ∧ (MainC.is_pointer_candidate p).isSome) →
      (MainC.try_dir_icon envM).1 = false) := by
  refine ⟨Thumb.chainLoop_iterations_le envT _ entry, ?_, MainC.dirIconLoop_iterations_le envM _ _, ?_⟩
  · intro hp
    exact Thumb.chainLoop_all_pointers_false envT hp _ entry
  · intro hp
    exact MainC.dirIconLoop_all_pointers_false envM hp _ _

/-- C7 environment for the thumbnailer loop: every entry extracts to the
single byte `a`, itself a pointer — an unbounded cyclic chain. -/
def c7envT : Thumb.ChainEnv :=
  { extract := fun _ => some [97]
    render := fun _ => true }

/-- C7 environment for the main.c loop, same cyclic chain. -/
def c7envM : MainC.ChainEnv :=
  { extract := fun _ => some [97]
    render := fun _ => true }

/-- C7, witness: on the concrete cyclic-chain environments, both loops end
in failure. -/
theorem c7_witness :
    (Thumb.process_entry_following_symlinks c7envT (strB ".DirIcon")).1 = false ∧
    (MainC.try_dir_icon c7envM).1 = false := by
  have h := c7_hop_bound c7envT c7envM (strB ".DirIcon")
  exact ⟨h.2.1 (fun e => ⟨[97], rfl, by decide⟩), h.2.2.2 (fun e => ⟨[97], rfl, by decide⟩)⟩

/-! ## Substring searches: `g_strrstr` and `strrchr` -/

/-- `pre` is an initial segment of `l`. -/
def isHeadOf (pre l : List Nat) : Bool := l.take pre.length == pre

/-- `suf` is a final segment of `l` (byte-exact). -/
def isTailOf (suf l : List Nat) : Bool :=
  decide (suf.length ≤ l.length) && (l.drop (l.length - suf.length) == suf)

/-- `suf` is a final segment of `l` up to ASCII case. -/
def isTailCIOf (suf l : List Nat) : Bool :=
  decide (suf.length ≤ l.length) && strCaseEq (l.drop (l.length - suf.length)) suf

/-- Largest index at or below `i` at which `needle` occurs in `p`: the
search performed by `g_strrstr` (substring) and `strrchr` (single byte). -/
def lastOccFrom (p needle : List Nat) : Nat → Option Nat
  | 0 => if isHeadOf needle p then some 0 else none
  | i + 1 =>
    if isHeadOf needle (p.drop (i + 1)) then some (i + 1)
    else lastOccFrom p needle i

/-- Index of the last occurrence of `needle` in `p`. -/
def lastOcc (p needle : List Nat) : Option Nat := lastOccFrom p needle p.length

lemma isHeadOf_short {pre l : List Nat} (h : l.length < pre.length) :
    isHeadOf pre l = false := by
  unfold isHeadOf
  rw [beq_eq_false_iff_ne]
  intro heq
  have hlen := congrArg List.length heq
  simp only [List.length_take] at hlen
  omega

lemma isHeadOf_refl (l : List Nat) : isHeadOf l l = true := by
  simp [isHeadOf]

lemma lastOccFrom_some (p needle : List Nat) :
    ∀ N i, lastOccFrom p needle N = some i →
      isHeadOf needle (p.drop i) = true ∧ i ≤ N := by
  intro N
  induction N with
  | zero =>
    intro i h
    unfold lastOccFrom at h
    split at h
    · next hc =>
      obtain rfl : (0 : Nat) = i := Option.some_inj.mp h
      simpa using hc
    · exact absurd h (by simp)
  | succ n ih =>
    intro i h
    unfold lastOccFrom at h
    split at h
    · next hc =>
      obtain rfl : n + 1 = i := Option.some_inj.mp h
      exact ⟨hc, le_refl _⟩
    · have := ih i h
      exact ⟨this.1, Nat.le_succ_of_le this.2⟩

lemma lastOccFrom_max (p needle : List Nat) (i0 : Nat)
    (h0 : isHeadOf needle (p.drop i0) = true)
    (hmax : ∀ j, i0 < j → isHeadOf needle (p.drop j) = false) :
    ∀ N, i0 ≤ N → lastOccFrom p needle N = some i0 := by
  intro N
  induction N with
  | zero =>
    intro hle
    obtain rfl : i0 = 0 := Nat.le_zero.mp hle
    unfold lastOccFrom
    rw [if_pos (by simpa using h0)]
  | succ n ih =>
    intro hle
    unfold lastOccFrom
    rcases Nat.lt_or_ge i0 (n + 1) with hlt | hge
    · rw [if_neg (by rw [hmax (n + 1) hlt]; simp)]
      exact ih (Nat.lt_succ_iff.mp hlt)
    · obtain rfl : i0 = n + 1 := le_antisymm hle hge
      rw [if_pos h0]

lemma strCaseEq_length {a b : List Nat} (h : strCaseEq a b = true) :
    a.length = b.length := by
  unfold strCaseEq at h
  have := congrArg List.length (beq_iff_eq.mp h)
  simpa using this

lemma strCaseEq_refl (a : List Nat) : strCaseEq a a = true := by
  simp [strCaseEq]

/-- `lowerB b = 46` forces `b = 46` (`.` is not a letter). -/
lemma lowerB_eq_dot {b : Nat} (h : lowerB b = 46) : b = 46 := by
  unfold lowerB at h
  split at h <;> omega

/-! ## main.c: descriptor fallback -/

namespace MainC

/-- The match test of `find_first_desktop_entry` (main.c, lines 440-450):
`g_strrstr(path, ".desktop")` — a case-sensitive search for the LAST
occurrence of the literal `".desktop"` — followed by a case-insensitive
comparison of that suffix against `".desktop"`. -/
def desktopMatch (p : List Nat) : Bool :=
  match lastOcc p (strB ".desktop") with
  | some i => strCaseEq (p.drop i) (strB ".desktop")
  | none => false

/-- `find_first_desktop_entry` (main.c, lines 440-450). -/
def find_first_desktop_entry (paths : List (List Nat)) : Option (List Nat) :=
  paths.find? desktopMatch

/-- `g_strsplit(data, "\n", -1)`. -/
def splitNl : List Nat → List (List Nat)
  | [] => [[]]
  | b :: rest =>
    if b == 10 then [] :: splitNl rest
    else
      match splitNl rest with
      | [] => [[b]]
      | l :: ls => (b :: l) :: ls

/-- The line loop of `extract_icon_key` (main.c, lines 452-469): strip each
line, skip comment and blank lines, return the text after `Icon=` of the
first line matching `g_ascii_strncasecmp(line, "Icon=", 5) == 0`. -/
def iconKeyLines : List (List Nat) → Option (List Nat)
  | [] => none
  | line :: rest =>
    if trimB line = [] then iconKeyLines rest
    else if (trimB line).headD 0 == 35 then iconKeyLines rest
    else if strCaseEq ((trimB line).take 5) (strB "Icon=") then some ((trimB line).drop 5)
    else iconKeyLines rest

/-- `extract_icon_key` (main.c, lines 452-469). -/
def extract_icon_key (payload : List Nat) : Option (List Nat) :=
  iconKeyLines (splitNl payload)

/-- The claim's line condition: non-blank, not a comment, begins
case-insensitively with `Icon=` (on the stripped line). -/
def iconLineOK (l : List Nat) : Bool :=
  !(l.isEmpty) && (l.headD 0 != 35) && strCaseEq (l.take 5) (strB "Icon=")

end MainC

lemma desktopMatch_eq_tail (p : List Nat) :
    MainC.desktopMatch p = isTailOf (strB ".desktop") p := by
  cases ht : isTailOf (strB ".desktop") p with
  | true =>
    unfold isTailOf at ht
    rw [Bool.and_eq_true, decide_eq_true_eq, beq_iff_eq] at ht
    obtain ⟨hlen, hsuf⟩ := ht
    have h8 : (strB ".desktop").length = 8 := by decide
    rw [h8] at hlen hsuf
    have hocc : lastOcc p (strB ".desktop") = some (p.length - 8) := by
      unfold lastOcc
      apply lastOccFrom_max
      · rw [hsuf]
        exact isHeadOf_refl _
      · intro j hj
        apply isHeadOf_short
        rw [h8]
        simp only [List.length_drop]
        omega
      · omega
    unfold MainC.desktopMatch
    rw [hocc]
    show strCaseEq (p.drop (p.length - 8)) (strB ".desktop") = true
    rw [hsuf]
    exact strCaseEq_refl _
  | false =>
    unfold MainC.desktopMatch
    cases hocc : lastOcc p (strB ".desktop") with
    | none => rfl
    | some i =>
      obtain ⟨hhead, hle⟩ := lastOccFrom_some p (strB ".desktop") p.length i hocc
      cases hci : strCaseEq (p.drop i) (strB ".desktop") with
      | false =>
        show strCaseEq (p.drop i) (strB ".desktop") = false
        exact hci
      | true =>
        exfalso
        have hlen := strCaseEq_length hci
        simp only [List.length_drop] at hlen
        have h8 : (strB ".desktop").length = 8 := by decide
        rw [h8] at hlen
        have hdrop : p.drop i = strB ".desktop" := by
          have htake : (p.drop i).take (strB ".desktop").length = p.drop i := by
            apply List.take_of_length_le
            simp only [List.length_drop]
            omega
          unfold isHeadOf at hhead
          rw [← htake]
          exact beq_iff_eq.mp hhead
        have hT : isTailOf (strB ".desktop") p = true := by
          unfold isTailOf
          rw [Bool.and_eq_true, decide_eq_true_eq, beq_iff_eq, h8]
          refine ⟨by omega, ?_⟩
          rw [show p.length - 8 = i from by omega]
          exact hdrop
        rw [hT] at ht
        exact absurd ht (by simp)

lemma iconKeyLines_eq (lines : List (List Nat)) :
    MainC.iconKeyLines lines =
      ((lines.map trimB).find? MainC.iconLineOK).map (fun l => l.drop 5) := by
  induction lines with
  | nil => rfl
  | cons line rest ih =>
    unfold MainC.iconKeyLines
    simp only [List.map_cons, List.find?_cons]
    by_cases h1 : trimB line = []
    · rw [if_pos h1]
      have : MainC.iconLineOK (trimB line) = false := by
        unfold MainC.iconLineOK
        simp [h1, List.isEmpty_iff]
      rw [this, ih]
    · rw [if_neg h1]
      by_cases h2 : (trimB line).headD 0 == 35
      · rw [if_pos h2]
        have : MainC.iconLineOK (trimB line) = false := by
          unfold MainC.iconLineOK
          simp only [h2, Bool.and_eq_false_iff]
          left
          right
          simpa using beq_iff_eq.mp h2
        rw [this, ih]
      · rw [if_neg h2]
        by_cases h3 : strCaseEq ((trimB line).take 5) (strB "Icon=") = true
        · rw [if_pos h3]
          have : MainC.iconLineOK (trimB line) = true := by
            unfold MainC.iconLineOK
            rw [Bool.and_eq_true, Bool.and_eq_true]
            refine ⟨⟨?_, ?_⟩, h3⟩
            · simpa [List.isEmpty_iff] using h1
            · simpa using h2
          rw [this]
          rfl
        · rw [if_neg h3]
          have : MainC.iconLineOK (trimB line) = false := by
            unfold MainC.iconLineOK
            simp only [Bool.and_eq_false_iff]
            right
            simpa using h3
          rw [this, ih]

/-- C8, counterexample: the listing `["app.DESKTOP"]` contains a path that
ends in `.desktop` case-insensitively, yet `find_first_desktop_entry`
selects nothing, because `g_strrstr` searches for the lowercase literal
only. -/
theorem c8_counterexample :
    MainC.find_first_desktop_entry [strB "app.DESKTOP"] = none ∧
    isTailCIOf (strB ".desktop") (strB "app.DESKTOP") = true := by decide

/-- C8 (amended): the descriptor fallback selects the first entry whose
path ends in the literal `.desktop` — the trailing comparison is
case-insensitive, but since the suffix position comes from a
case-sensitive `g_strrstr` search the effective condition is a byte-exact
`.desktop` suffix — and the IconKey is the text after `Icon=` of the first
stripped line that is non-blank, not a comment, and begins
case-insensitively with `Icon=`. -/
theorem c8_descriptor_fallback (paths : List (List Nat)) (payload : List Nat) :
    MainC.find_first_desktop_entry paths =
      paths.find? (fun p => isTailOf (strB ".desktop") p) ∧
    MainC.extract_icon_key payload =
      (((MainC.splitNl payload).map trimB).find? MainC.iconLineOK).map
        (fun l => l.drop 5) := by
  constructor
  · unfold MainC.find_first_desktop_entry
    congr 1
    funext p
    exact desktopMatch_eq_tail p
  · exact iconKeyLines_eq (MainC.splitNl payload)

/-! ## appimage-thumbnailer.c: root-level icon fallback -/

namespace Thumb

/-- `path_is_root_file` (appimage-thumbnailer.c, lines 663-667). -/
def path_is_root_file (p : List Nat) : Bool := !(p.contains 47)

/-- The extension test of `find_root_with_extension`:
`strrchr(path, '.')` and a case-insensitive comparison of the suffix from
the last dot against the wanted extension. -/
def extMatch (p ext : List Nat) : Bool :=
  match lastOcc p [46] with
  | some i => strCaseEq (p.drop i) ext
  | none => false

/-- `find_root_with_extension` (appimage-thumbnailer.c, lines 669-686). -/
def find_root_with_extension (paths : List (List Nat)) (ext : List Nat) :
    Option (List Nat) :=
  paths.find? (fun p => path_is_root_file p && extMatch p ext)

/-- The icon fallback of `main` (appimage-thumbnailer.c, lines 800-830),
entered when the `.DirIcon` chain failed: `listResult` is the
`list_archive_paths` outcome and `process` the
`process_entry_following_symlinks` outcome per entry path. -/
def main_fallback (listResult : Option (List (List Nat)))
    (process : List Nat → Bool) : Bool :=
  match listResult with
  | none => false
  | some paths =>
    let s1 :=
      match find_root_with_extension paths (strB ".svg") with
      | some e => process e
      | none => false
    if s1 then true
    else
      match find_root_with_extension paths (strB ".png") with
      | some e => process e
      | none => false

end Thumb

lemma isHeadOf_single (c : Nat) (l : List Nat) :
    isHeadOf [c] l = (l.head? == some c) := by
  cases l <;> simp [isHeadOf]

lemma extMatch_eq_tailCI (p ext : List Nat) (hhead : ext.take 1 = [46])
    (htail : ∀ b ∈ ext.drop 1, lowerB b ≠ 46) :
    Thumb.extMatch p ext = isTailCIOf ext p := by
  have hk1 : 1 ≤ ext.length := by
    cases ext with
    | nil => simp at hhead
    | cons a t => simp
  have hext_head : ext.head? = some 46 := by
    cases ext with
    | nil => simp at hhead
    | cons a t =>
      simp only [List.take_succ_cons, List.take_zero] at hhead
      obtain rfl : a = 46 := by simpa using hhead
      rfl
  cases ht : isTailCIOf ext p with
  | true =>
    unfold isTailCIOf at ht
    rw [Bool.and_eq_true, decide_eq_true_eq] at ht
    obtain ⟨hk, hci⟩ := ht
    have hmap : (p.drop (p.length - ext.length)).map lowerB = ext.map lowerB :=
      beq_iff_eq.mp hci
    have hocc : lastOcc p [46] = some (p.length - ext.length) := by
      unfold lastOcc
      apply lastOccFrom_max
      · rw [isHeadOf_single]
        have hh := congrArg List.head? hmap
        rw [List.head?_map, List.head?_map, hext_head] at hh
        cases hp : (p.drop (p.length - ext.length)).head? with
        | none => rw [hp] at hh; simp at hh
        | some c =>
          rw [hp] at hh
          simp only [Option.map_some', Option.some_inj] at hh
          have hc : c = 46 := lowerB_eq_dot (hh.trans (by decide))
          rw [hc]
          rfl
      · intro j hj
        rw [isHeadOf_single]
        rcases Nat.lt_or_ge j p.length with hjn | hjn
        · have hm1 : 1 ≤ j - (p.length - ext.length) := by omega
          have hdj : p.drop j = (p.drop (p.length - ext.length)).drop
              (j - (p.length - ext.length)) := by
            rw [List.drop_drop]
            congr 1
            omega
          have hmap2 : (p.drop j).map lowerB =
              (ext.drop (j - (p.length - ext.length))).map lowerB := by
            rw [hdj, List.map_drop, hmap, ← List.map_drop]
          have hh := congrArg List.head? hmap2
          rw [List.head?_map, List.head?_map] at hh
          cases hp : (p.drop j).head? with
          | none => simp
          | some c =>
            rw [hp] at hh
            cases he : (ext.drop (j - (p.length - ext.length))).head? with
            | none => rw [he] at hh; simp at hh
            | some b =>
              rw [he] at hh
              simp only [Option.map_some', Option.some_inj] at hh
              have hbmem : b ∈ ext.drop 1 := by
                have hsub : ext.drop (j - (p.length - ext.length)) ⊆ ext.drop 1 := by
                  rw [show ext.drop (j - (p.length - ext.length)) =
                      (ext.drop 1).drop (j - (p.length - ext.length) - 1) from ?_]
                  · exact List.drop_subset _ _
                  · rw [List.drop_drop]
                    congr 1
                    omega
                apply hsub
                cases hed : ext.drop (j - (p.length - ext.length)) with
                | nil => rw [hed] at he; simp at he
                | cons b0 t =>
                  rw [hed] at he
                  simp only [List.head?_cons, Option.some_inj] at he
                  rw [he]
                  exact List.mem_cons_self b t
              have hbne := htail b hbmem
              rw [beq_eq_false_iff_ne]
              intro hEq
              have hc : c = 46 := Option.some_inj.mp hEq
              apply hbne
              rw [← hh, hc]
              decide
        · have hnil : p.drop j = [] := List.drop_eq_nil_of_le hjn
          rw [hnil]
          rfl
      · omega
    unfold Thumb.extMatch
    rw [hocc]
    show strCaseEq (p.drop (p.length - ext.length)) ext = true
    exact hci
  | false =>
    unfold Thumb.extMatch
    cases hocc : lastOcc p [46] with
    | none => rfl
    | some i =>
      obtain ⟨_, hle⟩ := lastOccFrom_some p [46] p.length i hocc
      cases hci : strCaseEq (p.drop i) ext with
      | false =>
        show strCaseEq (p.drop i) ext = false
        exact hci
      | true =>
        exfalso
        have hlen := strCaseEq_length hci
        simp only [List.length_drop] at hlen
        have hT : isTailCIOf ext p = true := by
          unfold isTailCIOf
          rw [Bool.and_eq_true, decide_eq_true_eq]
          refine ⟨by omega, ?_⟩
          rw [show p.length - ext.length = i from by omega]
          exact hci
        rw [hT] at ht
        exact absurd ht (by simp)

/-- C10: after the `.DirIcon` chain fails, appimage-thumbnailer.c's `main`
lists the archive once and tries exactly two fallback candidates in order:
the first root-level (slash-free) entry whose last-dot extension equals
`.svg` case-insensitively, then the first such `.png` entry.  The outcome
is a function of these two candidates alone — no descriptor file enters
this variant — and when the listing fails or neither candidate resolves,
the phase fails. -/
theorem c10_root_fallback (paths : List (List Nat)) (process : List Nat → Bool) :
    Thumb.find_root_with_extension paths (strB ".svg") =
      paths.find? (fun p => Thumb.path_is_root_file p && isTailCIOf (strB ".svg") p) ∧
    Thumb.find_root_with_extension paths (strB ".png") =
      paths.find? (fun p => Thumb.path_is_root_file p && isTailCIOf (strB ".png") p) ∧
    Thumb.main_fallback none process = false ∧
    (Thumb.main_fallback (some paths) process = true ↔
      (∃ e, Thumb.find_root_with_extension paths (strB ".svg") = some e ∧
        process e = true) ∨
      ((∀ e, Thumb.find_root_with_extension paths (strB ".svg") = some e →
          process e = false) ∧
        ∃ e, Thumb.find_root_with_extension paths (strB ".png") = some e ∧
          process e = true)) := by
  refine ⟨?_, ?_, rfl, ?_⟩
  · unfold Thumb.find_root_with_extension
    congr 1
    funext p
    rw [extMatch_eq_tailCI p (strB ".svg") (by decide) (by decide)]
  · unfold Thumb.find_root_with_extension
    congr 1
    funext p
    rw [extMatch_eq_tailCI p (strB ".png") (by decide) (by decide)]
  · unfold Thumb.main_fallback
    cases h1 : Thumb.find_root_with_extension paths (strB ".svg") with
    | none =>
      cases h2 : Thumb.find_root_with_extension paths (strB ".png") with
      | none => simp [h1, h2]
      | some e2 => simp [h1, h2]
    | some e1 =>
      cases hp1 : process e1 with
      | true => simp [h1, hp1]
      | false =>
        cases h2 : Thumb.find_root_with_extension paths (strB ".png") with
        | none => simp [h1, h2, hp1]
        | some e2 => simp [h1, h2, hp1]

/-! ## Temporary extraction directories (C9)

The filesystem is a list of (path, kind) entries; paths are component
lists.  `unlink(2)` removes a non-directory entry and fails (leaving the
filesystem unchanged) otherwise; `rmdir(2)` removes an empty directory. -/

/-- Kind of a filesystem object. -/
inductive FKind
  | file
  | dir
  | symlink
deriving DecidableEq, Repr

/-- A filesystem path, as a list of components. -/
abbrev FPath := List String

/-- A filesystem: the set of existing objects, as a list of entries. -/
abbrev FS := List (FPath × FKind)

/-- Kind of the object at `p`, if any. -/
def lookupK (fs : FS) (p : FPath) : Option FKind :=
  (fs.find? (fun e => e.1 == p)).map (fun e => e.2)

/-- Is there a directory at `p`?  (`g_file_test(p, G_FILE_TEST_IS_DIR)`.) -/
def isDirAt (fs : FS) (p : FPath) : Bool := lookupK fs p == some FKind.dir

/-- `q` lies in the subtree rooted at `d` (including `q = d`). -/
def inSubtree (d q : FPath) : Bool := q.take d.length == d

/-- Does `d` contain anything besides itself? -/
def hasInside (fs : FS) (d : FPath) : Bool :=
  fs.any (fun e => inSubtree d e.1 && !(e.1 == d))

/-- `unlink(2)` / `g_unlink`: removes the object at `p` unless it is a
directory; failures are ignored by the C code. -/
def unlinkFs (fs : FS) (p : FPath) : FS :=
  if lookupK fs p == some FKind.dir then fs
  else fs.filter (fun e => !(e.1 == p))

/-- `rmdir(2)` / `g_rmdir`: removes the directory at `p` when it is empty;
failures are ignored by the C code. -/
def rmdirFs (fs : FS) (p : FPath) : FS :=
  if lookupK fs p == some FKind.dir && !(hasInside fs p) then
    fs.filter (fun e => !(e.1 == p))
  else fs

/-- The children `g_dir_read_name` yields for directory `d`, already
joined with `g_build_filename(dir_path, name)`: the paths of the entries
exactly one level below `d`. -/
def childPaths (fs : FS) (d : FPath) : List FPath :=
  (fs.filter (fun e => e.1.length == d.length + 1 && inSubtree d e.1)).map
    (fun e => e.1)

/-- `remove_directory_recursive` (squashfs-extract.c, lines 156-178), with
the recursion depth as fuel (the C recursion is bounded by the directory
tree depth): open the directory (falling back to `unlink` when `d` is not
a directory), recurse into child directories that are not symlinks,
`unlink` other children, then `rmdir` the directory itself. -/
def remove_directory_recursive : Nat → FS → FPath → FS
  | 0, fs, _ => fs
  | fuel + 1, fs, d =>
    if isDirAt fs d then
      rmdirFs
        ((childPaths fs d).foldl
          (fun acc c =>
            if isDirAt acc c then remove_directory_recursive fuel acc c
            else unlinkFs acc c)
          fs)
        d
    else unlinkFs fs d

/-- The cleanup tail of `dwarfs_extract_entry` (dwarfs-extract.c, lines
277-295): `g_unlink` the extracted file, then `g_rmdir` each parent up to
(but excluding) the temp directory, walking with `g_path_get_dirname`. -/
def rmdirParents : Nat → FS → FPath → FS
  | 0, fs, _ => fs
  | k + 1, fs, p => rmdirParents k (rmdirFs fs p) p.dropLast

/-- The whole cleanup block of `dwarfs_extract_entry`: unlink
`tmpdir/<entry>`, rmdir the intermediate parents bottom-up, then rmdir the
temp directory itself. -/
def dwarfs_cleanup (fs : FS) (tmpdir : FPath) (comps : List String) : FS :=
  rmdirFs
    (rmdirParents (comps.length - 1) (unlinkFs fs (tmpdir ++ comps))
      (tmpdir ++ comps).dropLast)
    tmpdir

lemma inSubtree_refl (d : FPath) : inSubtree d d = true := by
  simp [inSubtree]

lemma inSubtree_append (d : FPath) (xs : List String) :
    inSubtree d (d ++ xs) = true := by
  simp [inSubtree, List.take_left]

lemma length_le_of_inSubtree {d q : FPath} (h : inSubtree d q = true) :
    d.length ≤ q.length := by
  unfold inSubtree at h
  have := congrArg List.length (beq_iff_eq.mp h)
  simp only [List.length_take] at this
  omega

lemma inSubtree_trans {d c q : FPath} (h1 : inSubtree d c = true)
    (h2 : inSubtree c q = true) : inSubtree d q = true := by
  have hdc := length_le_of_inSubtree h1
  unfold inSubtree at h1 h2 ⊢
  rw [beq_iff_eq] at h1 h2 ⊢
  have hq : (q.take c.length).take d.length = d := by rw [h2, h1]
  rw [List.take_take, Nat.min_eq_left hdc] at hq
  exact hq

lemma eq_of_inSubtree_of_length {d q : FPath} (h : inSubtree d q = true)
    (hl : q.length ≤ d.length) : q = d := by
  unfold inSubtree at h
  rw [beq_iff_eq] at h
  rw [← h, List.take_of_length_le hl]

lemma inSubtree_take {d q : FPath} (h : inSubtree d q = true) (k : Nat)
    (hk : d.length ≤ k) : inSubtree d (q.take k) = true := by
  unfold inSubtree at h ⊢
  rw [beq_iff_eq] at h ⊢
  rw [List.take_take, Nat.min_eq_left hk]
  exact h

lemma take_inSubtree (q : FPath) (k : Nat) : inSubtree (q.take k) q = true := by
  unfold inSubtree
  rw [beq_iff_eq, List.length_take]
  rcases Nat.le_total k q.length with hk | hk
  · rw [Nat.min_eq_left hk]
  · rw [Nat.min_eq_right hk, List.take_length, List.take_of_length_le hk]

lemma unlinkFs_sublist (fs : FS) (p : FPath) : List.Sublist (unlinkFs fs p) fs := by
  unfold unlinkFs
  split
  · exact List.Sublist.refl fs
  · exact List.filter_sublist fs

lemma rmdirFs_sublist (fs : FS) (p : FPath) : List.Sublist (rmdirFs fs p) fs := by
  unfold rmdirFs
  split
  · exact List.filter_sublist fs
  · exact List.Sublist.refl fs

lemma mem_unlinkFs_of_ne {fs : FS} {p : FPath} {e : FPath × FKind}
    (he : e ∈ fs) (hne : e.1 ≠ p) : e ∈ unlinkFs fs p := by
  unfold unlinkFs
  split
  · exact he
  · rw [List.mem_filter]
    exact ⟨he, by simpa using hne⟩

lemma mem_rmdirFs_of_ne {fs : FS} {p : FPath} {e : FPath × FKind}
    (he : e ∈ fs) (hne : e.1 ≠ p) : e ∈ rmdirFs fs p := by
  unfold rmdirFs
  split
  · rw [List.mem_filter]
    exact ⟨he, by simpa using hne⟩
  · exact he

lemma not_mem_unlink_self {fs : FS} {p : FPath} {e : FPath × FKind}
    (he : e ∈ unlinkFs fs p) (hk : lookupK fs p ≠ some FKind.dir) : e.1 ≠ p := by
  unfold unlinkFs at he
  rw [if_neg (by simpa using hk)] at he
  rw [List.mem_filter] at he
  simpa using he.2

lemma lookupK_eq_of_mem_unique {fs : FS} {e : FPath × FKind} (he : e ∈ fs)
    (huniq : ∀ e2 ∈ fs, e2.1 = e.1 → e2 = e) : lookupK fs e.1 = some e.2 := by
  induction fs with
  | nil => simp at he
  | cons f rest ih =>
    unfold lookupK
    by_cases hfe : (f.1 == e.1) = true
    · have hfind : List.find? (fun e2 => e2.1 == e.1) (f :: rest) = some f :=
        List.find?_cons_of_pos rest hfe
      rw [hfind]
      have hf : f = e := huniq f (List.mem_cons_self f rest) (beq_iff_eq.mp hfe)
      rw [hf]
      rfl
    · have hfind : List.find? (fun e2 => e2.1 == e.1) (f :: rest) =
          List.find? (fun e2 => e2.1 == e.1) rest :=
        List.find?_cons_of_neg rest (by simpa using hfe)
      rw [hfind]
      have he2 : e ∈ rest := by
        rcases List.mem_cons.mp he with h | h
        · exfalso
          apply hfe
          rw [← h]
          simp
        · exact h
      exact ih he2 (fun e2 h2 => huniq e2 (List.mem_cons_of_mem f h2))

lemma mem_of_lookupK_eq_some {fs : FS} {p : FPath} {k : FKind}
    (h : lookupK fs p = some k) : (p, k) ∈ fs := by
  unfold lookupK at h
  cases hf : fs.find? (fun e => e.1 == p) with
  | none => rw [hf] at h; simp at h
  | some e =>
    rw [hf] at h
    have hmem := List.mem_of_find?_eq_some hf
    have hprop := List.find?_some hf
    have hp : e.1 = p := beq_iff_eq.mp hprop
    have hk : e.2 = k := by simpa using h
    have : e = (p, k) := by
      cases e
      simp only at hp hk
      rw [hp, hk]
    rw [← this]
    exact hmem

/-- Paths in the subtree at `d` (including `d` itself) are pairwise
distinct: the filesystem is a set of objects. -/
def pathsNodupUnder (fs : FS) (d : FPath) : Prop :=
  ((fs.filter (fun e => inSubtree d e.1)).map (fun e => e.1)).Nodup

/-- Every strict intermediate prefix (below `d`) of a subtree entry exists
as a directory: the tree has no orphans. -/
def closedUnder (fs : FS) (d : FPath) : Prop :=
  ∀ e ∈ fs, inSubtree d e.1 = true →
    ∀ k, k < e.1.length → d.length < k → lookupK fs (e.1.take k) = some FKind.dir

/-- All subtree paths are shorter than `d.length + fuel`. -/
def boundedUnder (fs : FS) (d : FPath) (fuel : Nat) : Prop :=
  ∀ e ∈ fs, inSubtree d e.1 = true → e.1.length < d.length + fuel

instance (fs : FS) (d : FPath) : Decidable (pathsNodupUnder fs d) := by
  unfold pathsNodupUnder
  infer_instance

instance (fs : FS) (d : FPath) : Decidable (closedUnder fs d) := by
  unfold closedUnder
  infer_instance

instance (fs : FS) (d : FPath) (fuel : Nat) : Decidable (boundedUnder fs d fuel) := by
  unfold boundedUnder
  infer_instance

lemma filter_sublist_of_imp {p q : FPath × FKind → Bool}
    (h : ∀ e, p e = true → q e = true) :
    ∀ l : FS, List.Sublist (l.filter p) (l.filter q) := by
  intro l
  induction l with
  | nil => simp
  | cons a t ih =>
    by_cases hp : p a = true
    · rw [List.filter_cons_of_pos hp, List.filter_cons_of_pos (h a hp)]
      exact List.Sublist.cons₂ a ih
    · rw [List.filter_cons_of_neg (by simpa using hp)]
      by_cases hq : q a = true
      · rw [List.filter_cons_of_pos hq]
        exact List.Sublist.cons a ih
      · rw [List.filter_cons_of_neg (by simpa using hq)]
        exact ih

lemma pathsNodupUnder_mono {fs acc : FS} {d c : FPath}
    (hsub : List.Sublist acc fs) (hdc : inSubtree d c = true)
    (h : pathsNodupUnder fs d) : pathsNodupUnder acc c := by
  unfold pathsNodupUnder at h ⊢
  apply List.Nodup.sublist _ h
  apply List.Sublist.map
  exact List.Sublist.trans
    (List.Sublist.filter _ hsub)
    (filter_sublist_of_imp (fun e he => inSubtree_trans hdc he) fs)

lemma unique_under {fs : FS} {d : FPath} (hnd : pathsNodupUnder fs d)
    {e e2 : FPath × FKind} (he : e ∈ fs) (he2 : e2 ∈ fs)
    (hu : inSubtree d e.1 = true) (heq : e2.1 = e.1) : e2 = e := by
  have hf1 : e ∈ fs.filter (fun x => inSubtree d x.1) :=
    List.mem_filter.mpr ⟨he, hu⟩
  have hf2 : e2 ∈ fs.filter (fun x => inSubtree d x.1) :=
    List.mem_filter.mpr ⟨he2, by rw [heq]; exact hu⟩
  exact List.inj_on_of_nodup_map hnd hf2 hf1 heq

lemma lookupK_of_mem_under {fs : FS} {d : FPath} (hnd : pathsNodupUnder fs d)
    {e : FPath × FKind} (he : e ∈ fs) (hu : inSubtree d e.1 = true) :
    lookupK fs e.1 = some e.2 :=
  lookupK_eq_of_mem_unique he (fun _e2 h2 heq => unique_under hnd he h2 hu heq)

lemma foldl_keep {β : Type} (step : FS → β → FS) (e : FPath × FKind) :
    ∀ (l : List β) (init : FS),
      (∀ acc x, x ∈ l → e ∈ acc → e ∈ step acc x) →
      e ∈ init → e ∈ l.foldl step init := by
  intro l
  induction l with
  | nil => intro init _ h; exact h
  | cons x rest ih =>
    intro init hstep h
    exact ih (step init x)
      (fun acc y hy hm => hstep acc y (List.mem_cons_of_mem x hy) hm)
      (hstep init x (List.mem_cons_self x rest) h)

lemma foldl_sublist_step {β : Type} (step : FS → β → FS)
    (hstep : ∀ acc x, List.Sublist (step acc x) acc) :
    ∀ (l : List β) (init : FS), List.Sublist (l.foldl step init) init := by
  intro l
  induction l with
  | nil => intro init; exact List.Sublist.refl init
  | cons x rest ih =>
    intro init
    exact List.Sublist.trans (ih (step init x)) (hstep init x)

lemma rdr_sublist : ∀ (fuel : Nat) (fs : FS) (d : FPath),
    List.Sublist (remove_directory_recursive fuel fs d) fs := by
  intro fuel
  induction fuel with
  | zero => intro fs d; exact List.Sublist.refl fs
  | succ n ih =>
    intro fs d
    unfold remove_directory_recursive
    split
    · refine List.Sublist.trans (rmdirFs_sublist _ _) ?_
      apply foldl_sublist_step
      intro acc c
      split
      · exact ih acc c
      · exact unlinkFs_sublist acc c
    · exact unlinkFs_sublist fs d

lemma step_keep {n : Nat} {acc : FS} {c : FPath} {e : FPath × FKind}
    (he : e ∈ acc) (hnc : inSubtree c e.1 = false)
    (hframe : ∀ fs2 d2 e2, e2 ∈ fs2 → inSubtree d2 e2.1 = false →
      e2 ∈ remove_directory_recursive n fs2 d2) :
    e ∈ (if isDirAt acc c then remove_directory_recursive n acc c
      else unlinkFs acc c) := by
  split
  · exact hframe acc c e he hnc
  · apply mem_unlinkFs_of_ne he
    intro h
    rw [h, inSubtree_refl c] at hnc
    cases hnc

lemma rdr_frame : ∀ (fuel : Nat) (fs : FS) (d : FPath) (e : FPath × FKind),
    e ∈ fs → inSubtree d e.1 = false →
    e ∈ remove_directory_recursive fuel fs d := by
  intro fuel
  induction fuel with
  | zero => intro fs d e he _; exact he
  | succ n ih =>
    intro fs d e he hnot
    have hne : e.1 ≠ d := by
      intro h
      rw [h, inSubtree_refl d] at hnot
      cases hnot
    unfold remove_directory_recursive
    split
    · apply mem_rmdirFs_of_ne _ hne
      apply foldl_keep _ e _ fs _ he
      intro acc c hc hacc
      have hnc : inSubtree c e.1 = false := by
        cases hsub : inSubtree c e.1
        · rfl
        · exfalso
          obtain ⟨ee, hee, hlc⟩ := List.mem_map.mp hc
          have hcl := List.mem_filter.mp hee
          have hcu : inSubtree d c = true := by
            have := hcl.2
            rw [Bool.and_eq_true] at this
            rw [← hlc]
            exact this.2
          rw [inSubtree_trans hcu hsub] at hnot
          cases hnot
      exact step_keep hacc hnc ih
    · exact mem_unlinkFs_of_ne he hne

/-- One iteration of the child loop of `remove_directory_recursive`. -/
def rdrStep (n : Nat) (acc : FS) (c : FPath) : FS :=
  if isDirAt acc c then remove_directory_recursive n acc c else unlinkFs acc c

lemma rdr_succ (fs : FS) (d : FPath) (n : Nat) :
    remove_directory_recursive (n + 1) fs d =
      if isDirAt fs d then rmdirFs ((childPaths fs d).foldl (rdrStep n) fs) d
      else unlinkFs fs d := by
  unfold remove_directory_recursive rdrStep
  rfl

lemma rdrStep_sublist (n : Nat) (acc : FS) (c : FPath) :
    List.Sublist (rdrStep n acc c) acc := by
  unfold rdrStep
  split
  · exact rdr_sublist n acc c
  · exact unlinkFs_sublist acc c

lemma rdrStep_keep {n : Nat} {acc : FS} {c : FPath} {e : FPath × FKind}
    (he : e ∈ acc) (hnc : inSubtree c e.1 = false) : e ∈ rdrStep n acc c := by
  unfold rdrStep
  split
  · exact rdr_frame n acc c e he hnc
  · apply mem_unlinkFs_of_ne he
    intro h
    rw [h, inSubtree_refl c] at hnc
    cases hnc

lemma childPaths_spec {fs : FS} {d : FPath} {c : FPath}
    (hc : c ∈ childPaths fs d) :
    (∃ kind, (c, kind) ∈ fs) ∧ c.length = d.length + 1 ∧ inSubtree d c = true := by
  obtain ⟨e, he, hec⟩ := List.mem_map.mp hc
  have hf := List.mem_filter.mp he
  have hcond := hf.2
  rw [Bool.and_eq_true] at hcond
  obtain ⟨hlen, hsub⟩ := hcond
  subst hec
  exact ⟨⟨e.2, hf.1⟩, by simpa using hlen, hsub⟩

lemma mem_childPaths {fs : FS} {d : FPath} {e : FPath × FKind} (he : e ∈ fs)
    (hlen : e.1.length = d.length + 1) (hsub : inSubtree d e.1 = true) :
    e.1 ∈ childPaths fs d := by
  apply List.mem_map.mpr
  refine ⟨e, List.mem_filter.mpr ⟨he, ?_⟩, rfl⟩
  rw [Bool.and_eq_true]
  exact ⟨by simpa using hlen, hsub⟩

lemma childPaths_nodup {fs : FS} {d : FPath} (hnd : pathsNodupUnder fs d) :
    (childPaths fs d).Nodup := by
  unfold childPaths
  apply List.Nodup.sublist _ hnd
  apply List.Sublist.map
  refine filter_sublist_of_imp (fun e he => ?_) fs
  rw [Bool.and_eq_true] at he
  exact he.2

lemma child_in_childPaths {fs : FS} {d : FPath}
    (hcl : closedUnder fs d) {e : FPath × FKind} (he : e ∈ fs)
    (hu : inSubtree d e.1 = true) (hne : e.1 ≠ d) :
    e.1.take (d.length + 1) ∈ childPaths fs d ∧
      inSubtree (e.1.take (d.length + 1)) e.1 = true := by
  have hlend : d.length ≤ e.1.length := length_le_of_inSubtree hu
  have hlt : d.length < e.1.length := by
    rcases Nat.lt_or_ge d.length e.1.length with h | h
    · exact h
    · exact absurd (eq_of_inSubtree_of_length hu h) hne
  have htk : (e.1.take (d.length + 1)).length = d.length + 1 := by
    rw [List.length_take]
    omega
  have hsubc : inSubtree d (e.1.take (d.length + 1)) = true :=
    inSubtree_take hu (d.length + 1) (Nat.le_succ d.length)
  have hself : inSubtree (e.1.take (d.length + 1)) e.1 = true :=
    take_inSubtree e.1 (d.length + 1)
  refine ⟨?_, hself⟩
  rcases Nat.lt_or_ge (d.length + 1) e.1.length with hlt2 | hge2
  · have hdir := hcl e he hu (d.length + 1) hlt2 (Nat.lt_succ_self d.length)
    have hmem := mem_of_lookupK_eq_some hdir
    exact mem_childPaths hmem htk hsubc
  · have heq : e.1.take (d.length + 1) = e.1 := List.take_of_length_le hge2
    rw [heq]
    exact mem_childPaths he (by omega) hu

lemma fold_removes_children (n : Nat) (fs : FS) (d : FPath)
    (ih : ∀ fs2 d2, lookupK fs2 d2 = some FKind.dir → pathsNodupUnder fs2 d2 →
      closedUnder fs2 d2 → boundedUnder fs2 d2 n →
      ∀ e2 ∈ remove_directory_recursive n fs2 d2, inSubtree d2 e2.1 = false)
    (hnd : pathsNodupUnder fs d) (hcl : closedUnder fs d)
    (hb : boundedUnder fs d (n + 1)) :
    ∀ (cs : List FPath) (acc : FS),
      cs.Nodup →
      (∀ c ∈ cs, c.length = d.length + 1 ∧ inSubtree d c = true) →
      List.Sublist acc fs →
      (∀ e ∈ fs, ∀ c ∈ cs, inSubtree c e.1 = true → e ∈ acc) →
      ∀ e ∈ cs.foldl (rdrStep n) acc, ∀ c ∈ cs, inSubtree c e.1 = false := by
  intro cs
  induction cs with
  | nil =>
    intro acc _ _ _ _ e _ c hc
    exact absurd hc (by simp)
  | cons c0 cs2 ihcs =>
    intro acc hnodup hmem hsub hkeep e hefold c hc
    rw [List.foldl_cons] at hefold
    obtain ⟨hc0len, hc0sub⟩ := hmem c0 (List.mem_cons_self _ _)
    have hacc1_sub_acc : List.Sublist (rdrStep n acc c0) acc := rdrStep_sublist n acc c0
    have hacc1_sub : List.Sublist (rdrStep n acc c0) fs := hacc1_sub_acc.trans hsub
    have hndacc : pathsNodupUnder acc d := pathsNodupUnder_mono hsub (inSubtree_refl d) hnd
    have hC : ∀ e2 ∈ rdrStep n acc c0, inSubtree c0 e2.1 = false := by
      unfold rdrStep
      split
      · next hdir0 =>
        apply ih acc c0
        · have : (lookupK acc c0 == some FKind.dir) = true := by
            simpa [isDirAt] using hdir0
          exact beq_iff_eq.mp this
        · exact pathsNodupUnder_mono hsub hc0sub hnd
        · intro e2 he2 hu2 k hk hkgt
          have he2fs : e2 ∈ fs := hsub.subset he2
          have hu2d : inSubtree d e2.1 = true := inSubtree_trans hc0sub hu2
          have hdk : d.length < k := by omega
          have hq := hcl e2 he2fs hu2d k hk hdk
          have hqmem := mem_of_lookupK_eq_some hq
          have hqc0 : inSubtree c0 (e2.1.take k) = true :=
            inSubtree_take hu2 k (by omega)
          have hqacc : (e2.1.take k, FKind.dir) ∈ acc :=
            hkeep _ hqmem c0 (List.mem_cons_self _ _) hqc0
          exact lookupK_of_mem_under hndacc hqacc (inSubtree_trans hc0sub hqc0)
        · intro e2 he2 hu2
          have he2fs : e2 ∈ fs := hsub.subset he2
          have := hb e2 he2fs (inSubtree_trans hc0sub hu2)
          omega
      · next hdir0 =>
        intro e2 he2
        cases hu2 : inSubtree c0 e2.1 with
        | false => rfl
        | true =>
          exfalso
          have he2acc : e2 ∈ acc := (unlinkFs_sublist acc c0).subset he2
          have he2fs : e2 ∈ fs := hsub.subset he2acc
          by_cases heq : e2.1 = c0
          · refine not_mem_unlink_self he2 ?_ heq
            intro hlk
            apply hdir0
            simp [isDirAt, hlk]
          · have hu2d : inSubtree d e2.1 = true := inSubtree_trans hc0sub hu2
            have hlen2 : c0.length < e2.1.length := by
              have hle := length_le_of_inSubtree hu2
              rcases Nat.lt_or_ge c0.length e2.1.length with h | h
              · exact h
              · exact absurd (eq_of_inSubtree_of_length hu2 h) heq
            have hq := hcl e2 he2fs hu2d c0.length hlen2 (by omega)
            have htc : e2.1.take c0.length = c0 := by
              unfold inSubtree at hu2
              exact beq_iff_eq.mp hu2
            rw [htc] at hq
            have hmemfs := mem_of_lookupK_eq_some hq
            have hmemacc : (c0, FKind.dir) ∈ acc :=
              hkeep _ hmemfs c0 (List.mem_cons_self _ _) (inSubtree_refl c0)
            have hlk : lookupK acc c0 = some FKind.dir :=
              lookupK_of_mem_under hndacc hmemacc hc0sub
            exact hdir0 (by simp [isDirAt, hlk])
    rcases List.mem_cons.mp hc with rfl | hc2
    · have hsubfold : List.Sublist (cs2.foldl (rdrStep n) (rdrStep n acc c)) (rdrStep n acc c) :=
        foldl_sublist_step (rdrStep n) (rdrStep_sublist n) cs2 _
      exact hC e (hsubfold.subset hefold)
    · refine ihcs (rdrStep n acc c0) (List.Nodup.of_cons hnodup)
        (fun c3 h3 => hmem c3 (List.mem_cons_of_mem c0 h3)) hacc1_sub ?_ e hefold c hc2
      intro e2 he2 c3 hc3 hu3
      have he2acc : e2 ∈ acc := hkeep e2 he2 c3 (List.mem_cons_of_mem c0 hc3) hu3
      have hne20 : inSubtree c0 e2.1 = false := by
        cases hx : inSubtree c0 e2.1 with
        | false => rfl
        | true =>
          exfalso
          obtain ⟨hc3len, _⟩ := hmem c3 (List.mem_cons_of_mem c0 hc3)
          have h1 : e2.1.take c0.length = c0 := by
            unfold inSubtree at hx
            exact beq_iff_eq.mp hx
          have h2 : e2.1.take c3.length = c3 := by
            unfold inSubtree at hu3
            exact beq_iff_eq.mp hu3
          have hcc : c0 = c3 := by
            rw [← h1, ← h2, hc0len, hc3len]
          have hnot0 : c0 ∉ cs2 := (List.nodup_cons.mp hnodup).1
          rw [hcc] at hnot0
          exact hnot0 hc3
      exact rdrStep_keep he2acc hne20

lemma rdr_removes : ∀ (fuel : Nat) (fs : FS) (d : FPath),
    lookupK fs d = some FKind.dir → pathsNodupUnder fs d →
    closedUnder fs d → boundedUnder fs d fuel →
    ∀ e ∈ remove_directory_recursive fuel fs d, inSubtree d e.1 = false := by
  intro fuel
  induction fuel with
  | zero =>
    intro fs d hdir _ _ hb e _
    exfalso
    have hmem := mem_of_lookupK_eq_some hdir
    have hlt := hb (d, FKind.dir) hmem (inSubtree_refl d)
    have hlt2 : d.length < d.length + 0 := hlt
    omega
  | succ n ih =>
    intro fs d hdir hnd hcl hb e he
    have hdirAt : isDirAt fs d = true := by simp [isDirAt, hdir]
    rw [rdr_succ fs d n, if_pos hdirAt] at he
    have HF := fold_removes_children n fs d ih hnd hcl hb (childPaths fs d) fs
      (childPaths_nodup hnd)
      (fun c hc => (childPaths_spec hc).2)
      (List.Sublist.refl fs)
      (fun e2 he2 _ _ _ => he2)
    have hfs1sub : List.Sublist ((childPaths fs d).foldl (rdrStep n) fs) fs :=
      foldl_sublist_step (rdrStep n) (rdrStep_sublist n) _ fs
    have hdmem : (d, FKind.dir) ∈ fs := mem_of_lookupK_eq_some hdir
    have hdmem1 : (d, FKind.dir) ∈ (childPaths fs d).foldl (rdrStep n) fs := by
      refine foldl_keep (rdrStep n) _ _ fs ?_ hdmem
      intro acc c hc hm
      have hclen := ((childPaths_spec hc).2).1
      have hnc : inSubtree c d = false := by
        cases hx : inSubtree c d with
        | false => rfl
        | true =>
          exfalso
          have := length_le_of_inSubtree hx
          omega
      exact rdrStep_keep hm hnc
    have hdlookup1 :
        lookupK ((childPaths fs d).foldl (rdrStep n) fs) d = some FKind.dir :=
      lookupK_of_mem_under (pathsNodupUnder_mono hfs1sub (inSubtree_refl d) hnd)
        hdmem1 (inSubtree_refl d)
    have hinside : hasInside ((childPaths fs d).foldl (rdrStep n) fs) d = false := by
      cases hx : hasInside ((childPaths fs d).foldl (rdrStep n) fs) d with
      | false => rfl
      | true =>
        exfalso
        unfold hasInside at hx
        rw [List.any_eq_true] at hx
        obtain ⟨e2, he2, hcond⟩ := hx
        rw [Bool.and_eq_true] at hcond
        have hu2 : inSubtree d e2.1 = true := hcond.1
        have hne2 : e2.1 ≠ d := by simpa using hcond.2
        have he2fs : e2 ∈ fs := hfs1sub.subset he2
        obtain ⟨hcmem, hcsub⟩ := child_in_childPaths hcl he2fs hu2 hne2
        have hfalse := HF e2 he2 _ hcmem
        rw [hfalse] at hcsub
        cases hcsub
    unfold rmdirFs at he
    rw [if_pos (by simp [hdlookup1, hinside])] at he
    rw [List.mem_filter] at he
    obtain ⟨he1, hene⟩ := he
    cases hx : inSubtree d e.1 with
    | false => rfl
    | true =>
      exfalso
      have hefs : e ∈ fs := hfs1sub.subset he1
      have hne : e.1 ≠ d := by simpa using hene
      obtain ⟨hcmem, hcsub⟩ := child_in_childPaths hcl hefs hx hne
      have hfalse := HF e he1 _ hcmem
      rw [hfalse] at hcsub
      cases hcsub

lemma squashfs_cleanup_restores (fuel : Nat) (base created : FS) (tmpdir : FPath)
    (hbase : ∀ e ∈ base, inSubtree tmpdir e.1 = false)
    (hcreated : ∀ e ∈ created, inSubtree tmpdir e.1 = true ∧ e.1 ≠ tmpdir)
    (hnd : pathsNodupUnder (base ++ (tmpdir, FKind.dir) :: created) tmpdir)
    (hcl : closedUnder (base ++ (tmpdir, FKind.dir) :: created) tmpdir)
    (hb : boundedUnder (base ++ (tmpdir, FKind.dir) :: created) tmpdir fuel) :
    ∀ e, e ∈ remove_directory_recursive fuel
        (base ++ (tmpdir, FKind.dir) :: created) tmpdir ↔ e ∈ base := by
  have htmpmem : (tmpdir, FKind.dir) ∈ base ++ (tmpdir, FKind.dir) :: created :=
    List.mem_append_right base (List.mem_cons_self _ _)
  have hlook : lookupK (base ++ (tmpdir, FKind.dir) :: created) tmpdir =
      some FKind.dir :=
    lookupK_of_mem_under hnd htmpmem (inSubtree_refl tmpdir)
  intro e
  constructor
  · intro he
    have hefs : e ∈ base ++ (tmpdir, FKind.dir) :: created :=
      (rdr_sublist fuel _ _).subset he
    have hnot := rdr_removes fuel _ tmpdir hlook hnd hcl hb e he
    rcases List.mem_append.mp hefs with h | h
    · exact h
    · exfalso
      rcases List.mem_cons.mp h with h2 | h2

      · rw [h2] at hnot
        rw [inSubtree_refl tmpdir] at hnot
        cases hnot
      · have := (hcreated e h2).1
        rw [this] at hnot
        cases hnot
  · intro he
    exact rdr_frame fuel _ tmpdir e (List.mem_append_left _ he) (hbase e he)

lemma dropLast_chain {tmpdir : FPath} {comps : List String} {j : Nat}
    (hj : j + 1 ≤ comps.length) :
    (tmpdir ++ comps.take (j + 1)).dropLast = tmpdir ++ comps.take j := by
  rw [List.dropLast_eq_take, List.take_append_eq_append_take]
  have hlen : (tmpdir ++ comps.take (j + 1)).length = tmpdir.length + (j + 1) := by
    simp [List.length_take]
    omega
  rw [hlen]
  have h1 : tmpdir.take (tmpdir.length + (j + 1) - 1) = tmpdir :=
    List.take_of_length_le (by omega)
  rw [h1]
  congr 1
  rw [List.take_take]
  congr 1
  omega

lemma chain_length {tmpdir : FPath} {comps : List String} {i : Nat}
    (hi : i ≤ comps.length) :
    (tmpdir ++ comps.take i).length = tmpdir.length + i := by
  simp [List.length_take]
  omega

lemma rmdirParents_chain (base : FS) (tmpdir : FPath) (comps : List String)
    (hbase : ∀ e ∈ base, inSubtree tmpdir e.1 = false) :
    ∀ (j : Nat) (fsj : FS),
      j ≤ comps.length - 1 →
      comps.length ≤ comps.length →
      (∀ e ∈ fsj, e ∈ base ∨ e = (tmpdir, FKind.dir) ∨
        ∃ i, 1 ≤ i ∧ i ≤ j ∧ e.1 = tmpdir ++ comps.take i ∧ e.2 = FKind.dir) →
      (∀ e ∈ base, e ∈ fsj) →
      ((tmpdir, FKind.dir) ∈ fsj) →
      pathsNodupUnder fsj tmpdir →
      ((∀ e ∈ rmdirParents j fsj (tmpdir ++ comps.take j),
          e ∈ base ∨ e = (tmpdir, FKind.dir)) ∧
        (∀ e ∈ base, e ∈ rmdirParents j fsj (tmpdir ++ comps.take j)) ∧
        ((tmpdir, FKind.dir) ∈ rmdirParents j fsj (tmpdir ++ comps.take j)) ∧
        pathsNodupUnder (rmdirParents j fsj (tmpdir ++ comps.take j)) tmpdir) := by
  intro j
  induction j with
  | zero =>
    intro fsj _ _ hchar hframe htmp hnd
    refine ⟨?_, hframe, htmp, hnd⟩
    intro e he
    rcases hchar e he with h | h | ⟨i, hi1, hi0, _⟩
    · exact Or.inl h
    · exact Or.inr h
    · omega
  | succ j ihj =>
    intro fsj hjle _ hchar hframe htmp hnd
    unfold rmdirParents
    rw [dropLast_chain (by omega)]
    have hambient : ∀ p, List.Sublist (rmdirFs fsj p) fsj := rmdirFs_sublist fsj
    -- the rmdir of chain (j+1) removes exactly the path chain (j+1) (if present)
    have hchar2 : ∀ e ∈ rmdirFs fsj (tmpdir ++ comps.take (j + 1)),
        e ∈ base ∨ e = (tmpdir, FKind.dir) ∨
        ∃ i, 1 ≤ i ∧ i ≤ j ∧ e.1 = tmpdir ++ comps.take i ∧ e.2 = FKind.dir := by
      intro e he
      have hefsj : e ∈ fsj := (hambient _).subset he
      rcases hchar e hefsj with h | h | ⟨i, hi1, hile, hpath, hkind⟩
      · exact Or.inl h
      · exact Or.inr (Or.inl h)
      · rcases Nat.lt_or_ge i (j + 1) with hlt | hge
        · exact Or.inr (Or.inr ⟨i, hi1, by omega, hpath, hkind⟩)
        · -- i = j + 1: this entry is removed by the rmdir
          exfalso
          have hieq : i = j + 1 := by omega
          rw [hieq] at hpath
          -- the rmdir branch is taken
          have hunder : inSubtree tmpdir e.1 = true := by
            rw [hpath]
            exact inSubtree_append tmpdir _
          have hlk : lookupK fsj e.1 = some FKind.dir := by
            have := lookupK_of_mem_under hnd hefsj hunder
            rw [hkind] at this
            exact this
          have hinside : hasInside fsj e.1 = false := by
            cases hx : hasInside fsj e.1 with
            | false => rfl
            | true =>
              exfalso
              unfold hasInside at hx
              rw [List.any_eq_true] at hx
              obtain ⟨e2, he2, hcond⟩ := hx
              rw [Bool.and_eq_true] at hcond
              have hu2 : inSubtree e.1 e2.1 = true := hcond.1
              have hne2 : e2.1 ≠ e.1 := by simpa using hcond.2
              have hlen2 : e.1.length ≤ e2.1.length := length_le_of_inSubtree hu2
              rcases hchar e2 he2 with h2 | h2 | ⟨i2, hi21, hi2le, hpath2, _⟩
              · have hb2 := hbase e2 h2
                have : inSubtree tmpdir e2.1 = true :=
                  inSubtree_trans hunder hu2
                rw [hb2] at this
                cases this
              · rw [h2] at hlen2 hne2
                simp only at hlen2 hne2
                rw [hpath] at hlen2
                rw [chain_length (by omega)] at hlen2
                omega
              · rw [hpath2] at hlen2
                rw [hpath] at hlen2
                rw [chain_length (by omega), chain_length (by omega)] at hlen2
                have hieq2 : i2 = j + 1 := by omega
                rw [hieq2] at hpath2
                rw [hpath2, ← hpath] at hne2
                exact hne2 rfl
          -- so rmdirFs filtered the path out, but e is still present
          have hlk2 : lookupK fsj (tmpdir ++ comps.take (j + 1)) = some FKind.dir := by
            rw [← hpath]
            exact hlk
          have hins2 : hasInside fsj (tmpdir ++ comps.take (j + 1)) = false := by
            rw [← hpath]
            exact hinside
          unfold rmdirFs at he
          rw [if_pos (by simp [hlk2, hins2])] at he
          rw [List.mem_filter] at he
          have hx := he.2
          rw [hpath] at hx
          simp at hx

    have hframe2 : ∀ e ∈ base, e ∈ rmdirFs fsj (tmpdir ++ comps.take (j + 1)) := by
      intro e he
      apply mem_rmdirFs_of_ne (hframe e he)
      intro heq
      have := hbase e he
      rw [heq, inSubtree_append tmpdir _] at this
      cases this
    have htmp2 : (tmpdir, FKind.dir) ∈ rmdirFs fsj (tmpdir ++ comps.take (j + 1)) := by
      apply mem_rmdirFs_of_ne htmp
      intro heq
      have hlen := congrArg List.length heq
      simp only [chain_length (show j + 1 ≤ comps.length by omega)] at hlen
      simp at hlen
    have hnd2 : pathsNodupUnder (rmdirFs fsj (tmpdir ++ comps.take (j + 1))) tmpdir :=
      pathsNodupUnder_mono (hambient _) (inSubtree_refl tmpdir) hnd
    exact ihj (rmdirFs fsj (tmpdir ++ comps.take (j + 1))) (by omega) (le_refl _)
      hchar2 hframe2 htmp2 hnd2

lemma dwarfs_cleanup_restores (base created : FS) (tmpdir : FPath)
    (comps : List String) (hcne : comps ≠ [])
    (hbase : ∀ e ∈ base, inSubtree tmpdir e.1 = false)
    (hcreated : ∀ e ∈ created, ∃ i, 1 ≤ i ∧ i ≤ comps.length ∧
      e.1 = tmpdir ++ comps.take i ∧
      (i < comps.length → e.2 = FKind.dir) ∧
      (i = comps.length → e.2 ≠ FKind.dir))
    (hnd : pathsNodupUnder (base ++ (tmpdir, FKind.dir) :: created) tmpdir) :
    ∀ e, e ∈ dwarfs_cleanup (base ++ (tmpdir, FKind.dir) :: created) tmpdir comps ↔
      e ∈ base := by
  have hL : 1 ≤ comps.length := by
    cases comps with
    | nil => exact absurd rfl hcne
    | cons a t => simp
  have hchainL : tmpdir ++ comps.take comps.length = tmpdir ++ comps := by
    rw [List.take_length]
  have hlenL : (tmpdir ++ comps).length = tmpdir.length + comps.length := by
    simp
  -- step 1: the unlink of tmpdir/<entry>
  have hsub1 : List.Sublist (unlinkFs (base ++ (tmpdir, FKind.dir) :: created)
      (tmpdir ++ comps)) (base ++ (tmpdir, FKind.dir) :: created) :=
    unlinkFs_sublist _ _
  have hchar1 : ∀ e ∈ unlinkFs (base ++ (tmpdir, FKind.dir) :: created)
      (tmpdir ++ comps),
      e ∈ base ∨ e = (tmpdir, FKind.dir) ∨
      ∃ i, 1 ≤ i ∧ i ≤ comps.length - 1 ∧ e.1 = tmpdir ++ comps.take i ∧
        e.2 = FKind.dir := by
    intro e he
    have hefs : e ∈ base ++ (tmpdir, FKind.dir) :: created := hsub1.subset he
    rcases List.mem_append.mp hefs with h | h
    · exact Or.inl h
    · rcases List.mem_cons.mp h with h2 | h2
      · exact Or.inr (Or.inl h2)
      · obtain ⟨i, hi1, hiL, hpath, hdirlt, hdireq⟩ := hcreated e h2
        rcases Nat.lt_or_ge i comps.length with hlt | hge
        · exact Or.inr (Or.inr ⟨i, hi1, by omega, hpath, hdirlt hlt⟩)
        · exfalso
          have hieq : i = comps.length := by omega
          have hpathL : e.1 = tmpdir ++ comps := by
            rw [hpath, hieq, List.take_length]
          have hu : inSubtree tmpdir e.1 = true := by
            rw [hpathL]
            exact inSubtree_append tmpdir comps
          have hlkp : lookupK (base ++ (tmpdir, FKind.dir) :: created)
              (tmpdir ++ comps) = some e.2 := by
            rw [← hpathL]
            exact lookupK_of_mem_under hnd hefs hu
          have hkne : e.2 ≠ FKind.dir := hdireq hieq
          unfold unlinkFs at he
          rw [if_neg (by simp [hlkp]; exact hkne)] at he
          rw [List.mem_filter] at he
          have hx := he.2
          rw [hpathL] at hx
          simp at hx
  have hframe1 : ∀ e ∈ base, e ∈ unlinkFs (base ++ (tmpdir, FKind.dir) :: created)
      (tmpdir ++ comps) := by
    intro e he
    apply mem_unlinkFs_of_ne (List.mem_append_left _ he)
    intro heq
    have hb := hbase e he
    rw [heq, inSubtree_append tmpdir comps] at hb
    cases hb
  have htmp1 : (tmpdir, FKind.dir) ∈ unlinkFs (base ++ (tmpdir, FKind.dir) :: created)
      (tmpdir ++ comps) := by
    apply mem_unlinkFs_of_ne (List.mem_append_right _ (List.mem_cons_self _ _))
    intro heq
    have hleq := congrArg List.length heq
    rw [hlenL] at hleq
    have hleq2 : tmpdir.length = tmpdir.length + comps.length := hleq
    omega
  have hnd1 : pathsNodupUnder (unlinkFs (base ++ (tmpdir, FKind.dir) :: created)
      (tmpdir ++ comps)) tmpdir :=
    pathsNodupUnder_mono hsub1 (inSubtree_refl tmpdir) hnd
  -- step 2: the parent rmdir loop
  have hdrop : (tmpdir ++ comps).dropLast = tmpdir ++ comps.take (comps.length - 1) := by
    have h1 : tmpdir ++ comps = tmpdir ++ comps.take (comps.length - 1 + 1) := by
      rw [show comps.length - 1 + 1 = comps.length from by omega, List.take_length]
    rw [h1, dropLast_chain (by omega)]
  obtain ⟨hcharR, hframeR, htmpR, hndR⟩ :=
    rmdirParents_chain base tmpdir comps hbase (comps.length - 1)
      (unlinkFs (base ++ (tmpdir, FKind.dir) :: created) (tmpdir ++ comps))
      (le_refl _) (le_refl _) hchar1 hframe1 htmp1 hnd1
  -- step 3: the final rmdir of the temp directory
  have hlkR : lookupK (rmdirParents (comps.length - 1)
      (unlinkFs (base ++ (tmpdir, FKind.dir) :: created) (tmpdir ++ comps))
      (tmpdir ++ comps.take (comps.length - 1))) tmpdir = some FKind.dir :=
    lookupK_of_mem_under hndR htmpR (inSubtree_refl tmpdir)
  have hinsR : hasInside (rmdirParents (comps.length - 1)
      (unlinkFs (base ++ (tmpdir, FKind.dir) :: created) (tmpdir ++ comps))
      (tmpdir ++ comps.take (comps.length - 1))) tmpdir = false := by
    cases hx : hasInside (rmdirParents (comps.length - 1)
        (unlinkFs (base ++ (tmpdir, FKind.dir) :: created) (tmpdir ++ comps))
        (tmpdir ++ comps.take (comps.length - 1))) tmpdir with
    | false => rfl
    | true =>
      exfalso
      unfold hasInside at hx
      rw [List.any_eq_true] at hx
      obtain ⟨e2, he2, hcond⟩ := hx
      rw [Bool.and_eq_true] at hcond
      have hu2 : inSubtree tmpdir e2.1 = true := hcond.1
      have hne2 : e2.1 ≠ tmpdir := by simpa using hcond.2
      rcases hcharR e2 he2 with h | h
      · have := hbase e2 h
        rw [this] at hu2
        cases hu2
      · rw [h] at hne2
        exact hne2 rfl
  intro e
  unfold dwarfs_cleanup
  rw [hdrop]
  constructor
  · intro he
    unfold rmdirFs at he
    rw [if_pos (by simp [hlkR, hinsR])] at he
    rw [List.mem_filter] at he
    obtain ⟨her, hene⟩ := he
    rcases hcharR e her with h | h
    · exact h
    · exfalso
      rw [h] at hene
      simp at hene
  · intro he
    apply mem_rmdirFs_of_ne (hframeR e he)
    intro heq
    have hb := hbase e he
    rw [heq, inSubtree_refl tmpdir] at hb
    cases hb

/-- C9: both extraction backends restore the filesystem exactly on every
exit path.  For squashfs-extract.c, whatever tree the tool materialised
under the fresh temp directory (any well-formed set of entries strictly
below it, with enough fuel for the recursion depth),
`remove_directory_recursive` removes the directory and everything inside
it and touches nothing else.  For dwarfs-extract.c, the unconditional
cleanup block removes the extracted entry, the parent directories created
for its nested path (any sub-chain of `tmpdir/comps`-prefix directories
with the entry itself a non-directory), and the temp directory itself —
also when the tool failed and materialised only part of the chain or
nothing. -/
theorem c9_temp_dir_cleanup
    (fuel : Nat) (base createdS createdD : FS) (tmpdir : FPath) (comps : List String)
    (hbase : ∀ e ∈ base, inSubtree tmpdir e.1 = false)
    (hcS : ∀ e ∈ createdS, inSubtree tmpdir e.1 = true ∧ e.1 ≠ tmpdir)
    (hndS : pathsNodupUnder (base ++ (tmpdir, FKind.dir) :: createdS) tmpdir)
    (hclS : closedUnder (base ++ (tmpdir, FKind.dir) :: createdS) tmpdir)
    (hbS : boundedUnder (base ++ (tmpdir, FKind.dir) :: createdS) tmpdir fuel)
    (hcne : comps ≠ [])
    (hcD : ∀ e ∈ createdD,
      1 ≤ e.1.length - tmpdir.length ∧
      e.1.length - tmpdir.length ≤ comps.length ∧
      e.1 = tmpdir ++ comps.take (e.1.length - tmpdir.length) ∧
      (e.1.length - tmpdir.length < comps.length → e.2 = FKind.dir) ∧
      (e.1.length - tmpdir.length = comps.length → e.2 ≠ FKind.dir))
    (hndD : pathsNodupUnder (base ++ (tmpdir, FKind.dir) :: createdD) tmpdir) :
    (∀ e, e ∈ remove_directory_recursive fuel
        (base ++ (tmpdir, FKind.dir) :: createdS) tmpdir ↔ e ∈ base) ∧
    (∀ e, e ∈ dwarfs_cleanup (base ++ (tmpdir, FKind.dir) :: createdD) tmpdir comps ↔
        e ∈ base) := by
  constructor
  · exact squashfs_cleanup_restores fuel base createdS tmpdir hbase hcS hndS hclS hbS
  · refine dwarfs_cleanup_restores base createdD tmpdir comps hcne hbase ?_ hndD
    intro e he
    exact ⟨e.1.length - tmpdir.length, (hcD e he).1, (hcD e he).2.1,
      (hcD e he).2.2.1, (hcD e he).2.2.2.1, (hcD e he).2.2.2.2⟩

/-- C9 witness data: a one-file base filesystem. -/
def c9base : FS := [(["home"], FKind.file)]

/-- C9 witness data: the temp directory path. -/
def c9tmp : FPath := ["tmp", "aim"]

/-- C9 witness data: what unsquashfs materialised under the temp dir. -/
def c9createdS : FS :=
  [(["tmp", "aim", "root"], FKind.dir),
   (["tmp", "aim", "root", ".DirIcon"], FKind.file)]

/-- C9 witness data: the nested entry path extracted by dwarfsextract. -/
def c9comps : List String := ["icons", "app.png"]

/-- C9 witness data: what dwarfsextract materialised under the temp dir. -/
def c9createdD : FS :=
  [(["tmp", "aim", "icons"], FKind.dir),
   (["tmp", "aim", "icons", "app.png"], FKind.file)]

/-- C9, witness: on concrete filesystems both cleanups delete the temp
subtree (nothing of it remains) and keep the rest intact. -/
theorem c9_witness :
    (["tmp", "aim", "root", ".DirIcon"], FKind.file) ∉
      remove_directory_recursive 3 (c9base ++ (c9tmp, FKind.dir) :: c9createdS) c9tmp ∧
    (["home"], FKind.file) ∈
      remove_directory_recursive 3 (c9base ++ (c9tmp, FKind.dir) :: c9createdS) c9tmp ∧
    (c9tmp, FKind.dir) ∉
      dwarfs_cleanup (c9base ++ (c9tmp, FKind.dir) :: c9createdD) c9tmp c9comps ∧
    (["home"], FKind.file) ∈
      dwarfs_cleanup (c9base ++ (c9tmp, FKind.dir) :: c9createdD) c9tmp c9comps := by
  have h := c9_temp_dir_cleanup 3 c9base c9createdS c9createdD c9tmp c9comps
    (by decide) (by decide) (by decide) (by decide) (by decide) (by decide)
    (by decide) (by decide)
  refine ⟨?_, ?_, ?_, ?_⟩
  · intro hmem
    exact absurd ((h.1 _).mp hmem) (by decide)
  · exact (h.1 _).mpr (by decide)
  · intro hmem
    exact absurd ((h.2 _).mp hmem) (by decide)
  · exact (h.2 _).mpr (by decide)

end AIT
